import Mathlib

/-!
# kpt: search/replace and identity-keyed merge

A shallow embedding of `internal/util/search/search.go` and
`lib/kio/merge/merge.go`, with models, taken from the spec, of the two-way
merge `merge.Merge` and of `PkgDiff`, whose code is not part of the sources,
followed by the properties proved about them.

Conventions of the embedding:

* A Go `string` is a list of characters (`Str`).  The only separators the
  code uses are the ASCII characters `.` and `*`; in UTF-8 their bytes occur
  only as those characters, so splitting and searching character by
  character agrees with Go's byte-wise functions on well-formed strings.
* A Go function that mutates its receiver and returns an `error` becomes a
  function from the state before to an `Outcome`: the state after together
  with the returned error, or a run-time panic.
* `SearchReplace.Count` is a Go `int`; it is only ever incremented by one
  per visited leaf, so it is modelled as an unbounded integer.
* `SearchReplace.Match` is the map allocated by `Perform`; it is modelled as
  an association list with at most one entry per key, read with `mapGet`
  (a missing key reads as the empty slice) and written with `mapSet`.
* Code the sources call but do not contain is a parameter of the function
  that calls it (`regexp`, `kioutil.GetFileAnnotations`, the tree visitor
  `accept`, `GetMeta`, `merge.Merge`), or, for the kyaml tree operations, a
  definition modelled from the spec and marked as such.
* `merge.Merge` changes its destination in place: it is a function of a
  state as well, so that "no merge step was performed" reads "the state is
  unchanged".  The order of `for k := range index` is a parameter too.
-/

set_option autoImplicit false

/-! ## Go strings -/

/-- Go `string`, as its sequence of characters. -/
abbrev Str := List Char

/-- Go `error` values are carried by their message. -/
abbrev Error := String

/-- Result of running a Go function on a state of type `σ`. -/
inductive Outcome (σ : Type) where
  /-- Normal return: the state afterwards and the returned `error` (`none` is `nil`). -/
  | returned (state : σ) (err : Option Error)
  /-- Run-time panic (nil dereference, slice bounds out of range). -/
  | panicked

/-- Loop of `strings.Split` for a non-empty separator: `skip` counts the
characters of a separator occurrence still to be dropped, `cur` is the
current segment in reverse. -/
def stringsSplitLoop (sep : Str) : Str → Nat → Str → List Str
  | [], _, cur => [cur.reverse]
  | _ :: cs, skip + 1, cur => stringsSplitLoop sep cs skip cur
  | c :: cs, 0, cur =>
    if sep.isPrefixOf (c :: cs) then
      cur.reverse :: stringsSplitLoop sep cs (sep.length - 1) []
    else
      stringsSplitLoop sep cs 0 (c :: cur)

/-- Go `strings.Split(s, sep)`: the substrings between the leftmost
non-overlapping occurrences of `sep`; an empty `sep` explodes `s` into its
characters. -/
def stringsSplit (s sep : Str) : List Str :=
  if sep = [] then s.map (fun c => [c]) else stringsSplitLoop sep s 0 []

/-- Go `strings.Contains(s, substr)`. -/
def stringsContains : Str → Str → Bool
  | [], substr => substr.isEmpty
  | c :: cs, substr => substr.isPrefixOf (c :: cs) || stringsContains cs substr

/-- Go `strings.TrimPrefix(s, pre)`. -/
def stringsTrimPrefix (s pre : Str) : Str :=
  if pre.isPrefixOf s then s.drop pre.length else s

/-- Go `fmt.Sprintf("%s: %s", a, b)`. -/
def sprintfPathVal (a b : Str) : Str := a ++ ':' :: ' ' :: b

/-! ## Go maps with slice values -/

/-- The map read `m[k]`: the zero value (nil slice) when `k` is absent. -/
def mapGet {κ β : Type} [DecidableEq κ] : List (κ × List β) → κ → List β
  | [], _ => []
  | (k', v) :: rest, k => if k' = k then v else mapGet rest k

/-- The map write `m[k] = v`. -/
def mapSet {κ β : Type} [DecidableEq κ] : List (κ × List β) → κ → List β → List (κ × List β)
  | [], k, v => [(k, v)]
  | (k', v') :: rest, k, v =>
    if k' = k then (k, v) :: rest else (k', v') :: mapSet rest k v

/-- The keys of a map. -/
def mapKeys {κ β : Type} (m : List (κ × List β)) : List κ := m.map Prod.fst

/-! ## Tree Node Abstraction -/

/-- Modelled from the spec: the Tree Node Abstraction (kyaml `RNode`), a tree
of mapping, sequence and scalar nodes, with the explicit null the merge rules
tell apart.  It is an external collaborator whose code is not part of the
sources. -/
inductive YNode where
  | null
  | scalar (Value : Str)
  | mapping (fields : List (Str × YNode))
  | sequence (elems : List YNode)

/-- Modelled from the spec: field get on the content of a mapping node. -/
def fieldGet : List (Str × YNode) → Str → Option YNode
  | [], _ => none
  | (k, v) :: rest, name => if k = name then some v else fieldGet rest name

/-- Modelled from the spec: field set on the content of a mapping node; an
existing field is overwritten, a missing one is appended. -/
def fieldSet : List (Str × YNode) → Str → YNode → List (Str × YNode)
  | [], name, value => [(name, value)]
  | (k, v) :: rest, name, value =>
    if k = name then (k, value) :: rest else (k, v) :: fieldSet rest name value

/-- Modelled from the spec: kyaml `yaml.Lookup(path...)`, the node found by
following the field names of `path` from `n`. -/
def YNode.Lookup : YNode → List Str → Option YNode
  | n, [] => some n
  | .mapping fields, p :: ps =>
    match fieldGet fields p with
    | none => none
    | some child => YNode.Lookup child ps
  | _, _ :: _ => none

/-- Modelled from the spec: kyaml `yaml.LookupCreate(yaml.MappingNode, path...)`,
lookup-or-create of the mapping along `path`.  Go returns a pointer into the
document; here that is the node found together with the function that puts
a replacement for it back into the document (creating the missing mappings).
Following a field of a node that is not a mapping is an error. -/
def YNode.LookupCreate : YNode → List Str → Except Error (YNode × (YNode → YNode))
  | n, [] => .ok (n, fun x => x)
  | .mapping fields, p :: ps =>
    match YNode.LookupCreate ((fieldGet fields p).getD (.mapping [])) ps with
    | .error e => .error e
    | .ok (node, plug) => .ok (node, fun x => .mapping (fieldSet fields p (plug x)))
  | _, _ :: _ => .error "wrong Node Kind"

/-- Modelled from the spec: kyaml `yaml.SetField(name, value)` applied to a
node: sets the field of a mapping, and is an error on any other node. -/
def YNode.SetField (node : YNode) (name : Str) (value : YNode) : Except Error YNode :=
  match node with
  | .mapping fields => .ok (.mapping (fieldSet fields name value))
  | _ => .error "wrong Node Kind"

/-- The scalar leaf handed to `visitScalar`: the node's `Value` is all the
callback reads or writes (`object.Document().Value`). -/
structure ScalarNode where
  Value : Str

namespace search

/-- `const PathDelimiter = "."`. -/
def PathDelimiter : Str := ['.']

/-- Compiled regular expression (`*regexp.Regexp`), by its `Match` method. -/
structure Regexp where
  Match : Str → Bool

/-- `type SearchReplace struct`; `regex` is `none` for the nil pointer. -/
structure SearchReplace where
  ByValue : Str
  ByValueRegex : Str
  regex : Option Regexp
  ByPath : Str
  Count : Int
  Match : List (Str × List Str)
  PutLiteral : Str
  filePath : Str

/-- The loop of `isAbsPath` over the path elements. -/
def isAbsPathLoop : List Str → Bool
  | [] => true
  | elem :: rest =>
    if elem = [] || stringsContains elem ['*'] then false else isAbsPathLoop rest

/-- `func isAbsPath(path string) bool`. -/
def isAbsPath (path : Str) : Bool :=
  let pathElem := stringsSplit path PathDelimiter
  if pathElem.length = 0 then false else isAbsPathLoop pathElem

/-- `func (sr *SearchReplace) regexMatch(value string) bool`; `none` is the
nil-pointer dereference of `sr.regex.Match` on an unset `regex`. -/
def SearchReplace.regexMatch (sr : SearchReplace) (value : Str) : Option Bool :=
  if sr.ByValueRegex = [] then some false
  else
    match sr.regex with
    | none => none
    | some re => some (re.Match value)

/-- `func (sr *SearchReplace) pathMatch(yamlPath string) (bool, error)`. -/
def SearchReplace.pathMatch (sr : SearchReplace) (yamlPath : Str) : Bool × Option Error :=
  if sr.ByPath = [] then (false, none)
  else if !isAbsPath sr.ByPath then
    (false, some "invalid input path, must follow pattern e.g. foo.bar.baz")
  else (decide (sr.ByPath = stringsTrimPrefix yamlPath PathDelimiter), none)

/-- `func (sr *SearchReplace) visitScalar(object *yaml.RNode, path string) error`. -/
def SearchReplace.visitScalar (sr : SearchReplace) (object : ScalarNode) (path : Str) :
    Outcome (SearchReplace × ScalarNode) :=
  match sr.pathMatch path with
  | (_, some err) => .returned (sr, object) (some err)
  | (pathMatch, none) =>
    -- `||` evaluates `regexMatch` only when the literal comparison is false
    match (if object.Value = sr.ByValue then some true else sr.regexMatch object.Value) with
    | none => .panicked
    | some valueMatch =>
      if (valueMatch && pathMatch) || (valueMatch && decide (sr.ByPath = [])) ||
          (pathMatch && decide (sr.ByValue = []) && decide (sr.ByValueRegex = [])) then
        let sr1 := { sr with Count := sr.Count + 1 }
        let object1 : ScalarNode :=
          if sr1.PutLiteral ≠ [] then { object with Value := sr1.PutLiteral } else object
        if sr1.filePath ≠ [] then
          let pathVal := sprintfPathVal (stringsTrimPrefix path PathDelimiter) object1.Value
          .returned
            ({ sr1 with Match := mapSet sr1.Match sr1.filePath (mapGet sr1.Match sr1.filePath ++ [pathVal]) },
              object1) none
        else .returned (sr1, object1) none
      else .returned (sr, object) none

/-- `func (sr *SearchReplace) shouldPutLiteralByPath() bool`. -/
def SearchReplace.shouldPutLiteralByPath (sr : SearchReplace) : Bool :=
  isAbsPath sr.ByPath && decide (sr.ByValue = []) && decide (sr.ByValueRegex = []) &&
    decide (sr.PutLiteral ≠ [])

/-- `func (sr *SearchReplace) putLiteral(object *yaml.RNode) error`. -/
def SearchReplace.putLiteral (sr : SearchReplace) (object : YNode) :
    Outcome (SearchReplace × YNode) :=
  let path := stringsSplit sr.ByPath PathDelimiter
  match path.getLast? with
  | none => .panicked -- `path[:len(path)-1]` on an empty slice
  | some last =>
    match object.LookupCreate path.dropLast with
    | .error err => .returned (sr, object) (some err)
    | .ok (node, plug) =>
      match node.SetField last (.scalar sr.PutLiteral) with
      | .error err => .returned (sr, object) (some err)
      | .ok node1 =>
        .returned
          ({ sr with
              Match := mapSet sr.Match sr.filePath
                (mapGet sr.Match sr.filePath ++ [sprintfPathVal sr.ByPath sr.PutLiteral])
              Count := sr.Count + 1 },
            plug node1) none

/-- `func (sr *SearchReplace) Filter(object *yaml.RNode) (*yaml.RNode, error)`.
The two collaborators that are not part of the sources are parameters:
`GetFileAnnotations` (kioutil, returning the file path and index annotations)
and `accept` (the tree visitor driving the `visit*` callbacks). -/
def SearchReplace.Filter (GetFileAnnotations : YNode → Except Error (Str × Str))
    (accept : SearchReplace → YNode → Outcome (SearchReplace × YNode))
    (sr : SearchReplace) (object : YNode) : Outcome (SearchReplace × YNode) :=
  match GetFileAnnotations object with
  | .error err => .returned (sr, object) (some err)
  | .ok (filePath, _) =>
    let sr1 := { sr with filePath := filePath }
    if sr1.shouldPutLiteralByPath then sr1.putLiteral object
    else accept sr1 object

/-- `func (sr *SearchReplace) Perform(resourcesPath string) error`.  The
collaborators that are not part of the sources are parameters: `Compile` is
`regexp.Compile`, and `Execute` is the `kio.Pipeline` that reads the package
at `resourcesPath`, filters every document with `sr` and writes it back; `w`
is the state of the package on disk. -/
def SearchReplace.Perform {ω : Type} (Compile : Str → Except Error Regexp)
    (Execute : Str → SearchReplace → ω → Outcome (SearchReplace × ω))
    (sr : SearchReplace) (resourcesPath : Str) (w : ω) : Outcome (SearchReplace × ω) :=
  let sr1 := { sr with Match := [] }
  if sr1.ByValueRegex ≠ [] then
    match Compile sr1.ByValueRegex with
    | .error err => .returned (sr1, w) (some err)
    | .ok re => Execute resourcesPath { sr1 with regex := some re } w
  else Execute resourcesPath sr1 w

/-! ### Observations used to state the properties -/

/-- One step of a pass: `Filter` has stored the file path of the current
document in the receiver, and then either a scalar leaf of it is visited or the
fast path writes into it. -/
inductive Step where
  | visit (filePath : Str) (object : ScalarNode) (path : Str)
  | put (filePath : Str) (object : YNode)

/-- The receiver after one step; `none` when the step panics.  A step that
returns an error leaves the receiver as the callee left it. -/
def runStep (sr : SearchReplace) : Step → Option SearchReplace
  | .visit filePath object path =>
    match ({ sr with filePath := filePath } : SearchReplace).visitScalar object path with
    | .returned (sr1, _) _ => some sr1
    | .panicked => none
  | .put filePath object =>
    match ({ sr with filePath := filePath } : SearchReplace).putLiteral object with
    | .returned (sr1, _) _ => some sr1
    | .panicked => none

/-- The receiver after a sequence of steps; `none` when one of them panics. -/
def runSteps : SearchReplace → List Step → Option SearchReplace
  | sr, [] => some sr
  | sr, step :: rest =>
    match runStep sr step with
    | none => none
    | some sr1 => runSteps sr1 rest

/-- The total number of entries over all lists of a match record. -/
def totalEntries (m : List (Str × List Str)) : Nat :=
  (m.map (fun e => e.2.length)).sum

/-- The visit counts the leaf as matched: `visitScalar` returns a nil error
and `Count` is one more than before. -/
def counted (sr : SearchReplace) (object : ScalarNode) (path : Str) : Bool :=
  match sr.visitScalar object path with
  | .returned (sr1, _) none => decide (sr1.Count = sr.Count + 1)
  | _ => false

/-- The state a matched leaf is left in: what lines 109-118 of `visitScalar`
do to the receiver and the scalar. -/
def matchedState (sr : SearchReplace) (object : ScalarNode) (path : Str) :
    SearchReplace × ScalarNode :=
  let value := if sr.PutLiteral = [] then object.Value else sr.PutLiteral
  let entry := sprintfPathVal (stringsTrimPrefix path PathDelimiter) value
  ({ sr with
      Count := sr.Count + 1
      Match :=
        if sr.filePath = [] then sr.Match
        else mapSet sr.Match sr.filePath (mapGet sr.Match sr.filePath ++ [entry]) },
    { Value := value })

/-- The configured regex matches `value`: a regex is configured, it has been
compiled, and its `Match` accepts the value. -/
def regexMatches (sr : SearchReplace) (value : Str) : Bool :=
  decide (sr.ByValueRegex ≠ []) &&
    match sr.regex with
    | none => false
    | some re => re.Match value

/-- Every node met on the way down `path` from `n`, the node at the end of
`path` excepted, is a mapping or is absent. -/
def mappingsAlong : YNode → List Str → Bool
  | _, [] => true
  | .mapping fields, p :: ps =>
    match fieldGet fields p with
    | none => true
    | some child => mappingsAlong child ps
  | _, _ :: _ => false

/-! ### Concrete configurations and documents -/

/-- A matcher behaving as the compiled pattern `^foo$`. -/
def exRegexFoo : Regexp := { Match := fun v => decide (v = "foo".toList) }

/-- Path `a.b` together with the literal value `x`; matches are written to `f.yaml`. -/
def exPathAndValue : SearchReplace :=
  { ByValue := "x".toList, ByValueRegex := [], regex := none, ByPath := "a.b".toList,
    Count := 0, Match := [], PutLiteral := "y".toList, filePath := "f.yaml".toList }

/-- Only the path `a.b` is configured. -/
def exPathOnly : SearchReplace :=
  { ByValue := [], ByValueRegex := [], regex := none, ByPath := "a.b".toList,
    Count := 0, Match := [], PutLiteral := [], filePath := "f.yaml".toList }

/-- Only the regex `^foo$` is configured, with the replacement `bar`. -/
def exRegexOnly : SearchReplace :=
  { ByValue := [], ByValueRegex := "^foo$".toList, regex := some exRegexFoo, ByPath := [],
    Count := 0, Match := [], PutLiteral := "bar".toList, filePath := "f.yaml".toList }

/-- Path `a.b` together with the regex `^foo$` (no literal value), with the
replacement `bar`. -/
def exPathAndRegex : SearchReplace :=
  { ByValue := [], ByValueRegex := "^foo$".toList, regex := some exRegexFoo,
    ByPath := "a.b".toList, Count := 0, Match := [], PutLiteral := "bar".toList,
    filePath := "f.yaml".toList }

/-- Only the path `a.b.c` and the replacement `x` are configured: the fast path. -/
def exPutLiteral : SearchReplace :=
  { ByValue := [], ByValueRegex := [], regex := none, ByPath := "a.b.c".toList,
    Count := 0, Match := [], PutLiteral := "x".toList, filePath := [] }

/-- The document `a: {b: {d: "1"}}`, which lacks the field `c` under `a.b`. -/
def exDocument : YNode :=
  .mapping [("a".toList, .mapping [("b".toList, .mapping [("d".toList, .scalar "1".toList)])])]

/-- File annotations of every document: path `f.yaml`, index `0`. -/
def exGetFileAnnotations : YNode → Except Error (Str × Str) :=
  fun _ => .ok ("f.yaml".toList, "0".toList)

/-- Only the literal value `x` is configured; nothing has been matched yet. -/
def exValueOnly : SearchReplace :=
  { ByValue := "x".toList, ByValueRegex := [], regex := none, ByPath := [],
    Count := 0, Match := [], PutLiteral := [], filePath := [] }

/-- The path `a.*`, which is not absolute, with a literal and a replacement. -/
def exWildcardPath : SearchReplace :=
  { ByValue := "x".toList, ByValueRegex := [], regex := none, ByPath := "a.*".toList,
    Count := 0, Match := [], PutLiteral := "y".toList, filePath := "f.yaml".toList }

/-- A compiler that rejects every pattern. -/
def exCompileFails : Str → Except Error Regexp := fun _ => .error "error parsing regexp"

/-- A compiler that accepts every pattern. -/
def exCompile : Str → Except Error Regexp := fun _ => .ok exRegexFoo

/-- A pipeline that counts its runs in the state of the package. -/
def exExecute : Str → SearchReplace → Nat → Outcome (SearchReplace × Nat) :=
  fun _ sr n => .returned (sr, n + 1) none

/-- A visitor that is never expected to run. -/
def exAccept : SearchReplace → YNode → Outcome (SearchReplace × YNode) :=
  fun _ _ => .panicked

end search

namespace merge

/-- The fields of `yaml.ResourceMeta` that `Filter` reads from `GetMeta`. -/
structure ResourceMeta where
  ApiVersion : Str
  Kind : Str
  Namespace : Str
  Name : Str

/-- `type mergeKey struct`. -/
structure mergeKey where
  apiVersion : Str
  kind : Str
  «namespace» : Str
  name : Str
  deriving DecidableEq

/-- The key `Filter` builds from a resource's meta (merge.go:48-53). -/
def mergeKey.ofMeta (meta : ResourceMeta) : mergeKey :=
  { apiVersion := meta.ApiVersion, kind := meta.Kind, «namespace» := meta.Namespace,
    name := meta.Name }

/-- What `Filter` returns, `([]*yaml.RNode, error)`, with the state its calls
of `merge.Merge` leave behind; a nil slice is the empty list and a nil
`*yaml.RNode` is `none`. -/
structure Result (R σ : Type) where
  output : List (Option R)
  err : Option Error
  state : σ

variable {R σ : Type}

/-- The indexing loop of `Filter` (merge.go:43-55); `.error` is its early
`return nil, err`. -/
def indexLoop (GetMeta : R → Except Error ResourceMeta) :
    List R → List (mergeKey × List R) → Except Error (List (mergeKey × List R))
  | [], index => .ok index
  | r :: rest, index =>
    match GetMeta r with
    | .error err => .error err
    | .ok meta =>
      let key := mergeKey.ofMeta meta
      indexLoop GetMeta rest (mapSet index key (mapGet index key ++ [r]))

/-- The inner loop of `Filter` over the resources of one key (merge.go:63-74);
`merged` starts as the nil pointer `none`.  `Merge` is `merge.Merge(src, dest)`
with its effect on the documents made explicit as a state. -/
def mergeResources (Merge : R → R → σ → Except Error R × σ) :
    List R → Option R → σ → Except Error (Option R) × σ
  | [], merged, s => (.ok merged, s)
  | patch :: rest, none, s => mergeResources Merge rest (some patch) s
  | patch :: rest, some merged, s =>
    match Merge patch merged s with
    | (.error err, s1) => (.error err, s1)
    | (.ok merged1, s1) => mergeResources Merge rest (some merged1) s1

/-- The outer loop of `Filter` over the keys of the index (merge.go:60-76),
visiting the keys in the order given. -/
def mergeLoop (Merge : R → R → σ → Except Error R × σ) (index : List (mergeKey × List R)) :
    List mergeKey → List (Option R) → σ → Except Error (List (Option R)) × σ
  | [], output, s => (.ok output, s)
  | k :: rest, output, s =>
    match mergeResources Merge (mapGet index k) none s with
    | (.error err, s1) => (.error err, s1)
    | (.ok merged, s1) => mergeLoop Merge index rest (output ++ [merged]) s1

/-- `func (c Filter) Filter(input []*yaml.RNode) ([]*yaml.RNode, error)`.
`GetMeta` and `merge.Merge` are not part of the sources and are parameters.
`rangeOrder` is the order in which `for k := range index` happens to visit
the keys of the map, which Go leaves unspecified. -/
def Filter (GetMeta : R → Except Error ResourceMeta)
    (Merge : R → R → σ → Except Error R × σ)
    (rangeOrder : List mergeKey → List mergeKey)
    (input : List R) (s : σ) : Result R σ :=
  match indexLoop GetMeta input [] with
  | .error err => { output := [], err := some err, state := s }
  | .ok index =>
    match mergeLoop Merge index (rangeOrder (mapKeys index)) [] s with
    | (.error err, s1) => { output := [], err := some err, state := s1 }
    | (.ok output, s1) => { output := output, err := none, state := s1 }

/-! ### Observations used to state the properties -/

/-- The identity key of a document, when `GetMeta` succeeds on it. -/
def keyOf (GetMeta : R → Except Error ResourceMeta) (d : R) : Option mergeKey :=
  match GetMeta d with
  | .ok meta => some (mergeKey.ofMeta meta)
  | .error _ => none

/-- The input documents having the identity key `k`, in input order. -/
def group (GetMeta : R → Except Error ResourceMeta) (input : List R) (k : mergeKey) : List R :=
  input.filter (fun d => decide (keyOf GetMeta d = some k))

/-- The left fold of a group: the first document seeds the accumulator and
each later document `d` replaces the accumulator `acc` by `M d acc`. -/
def foldGroup (M : R → R → Except Error R) : List R → Except Error (Option R)
  | [] => .ok none
  | d :: ds =>
    match ds.foldlM (fun acc p => M p acc) d with
    | .error err => .error err
    | .ok acc => .ok (some acc)

/-! ### The two-way merge -/

/-- Modelled from the spec: removal of a field from the content of a mapping
node. -/
def fieldDelete (fields : List (Str × YNode)) (name : Str) : List (Str × YNode) :=
  fields.filter (fun e => !decide (e.1 = name))

/-- The value an element of a sequence has for the associative key `key`: the
scalar under that field of a mapping element. -/
def keyValue (key : Str) : YNode → Option Str
  | .mapping fields =>
    match fieldGet fields key with
    | some (.scalar v) => some v
    | _ => none
  | _ => none

/-- The element `a` of the accumulator's sequence is the one the overriding
element `s` is matched with: both have the same value for the associative key. -/
def keyMatches (key : Str) (s a : YNode) : Bool :=
  match keyValue key s, keyValue key a with
  | some v, some w => decide (v = w)
  | _, _ => false

/-- Modelled from the spec: one field `name` of the overriding mapping, with
value `sv`, merged into the fields `df` of the accumulator; `mergeWith` merges
`sv` into the value the accumulator has for the field.  A field the
accumulator has is merged or, on `none`, deleted; a field present only in the
overriding mapping is copied (an explicit null has nothing to delete). -/
def mergeField (df : List (Str × YNode)) (name : Str) (sv : YNode)
    (mergeWith : YNode → Option YNode) : List (Str × YNode) :=
  match fieldGet df name with
  | some dv =>
    match mergeWith dv with
    | none => fieldDelete df name
    | some v => fieldSet df name v
  | none =>
    match sv with
    | .null => df
    | _ => fieldSet df name sv

/-- Modelled from the spec: one element `s` of the overriding sequence merged
into the accumulator's sequence `ds` by the associative key `key`;
`mergeWith` merges `s` into an element of the accumulator.  An element
matching one of the accumulator is merged into it in place, an unmatched
element is appended. -/
def mergeElem (key : Str) (s : YNode) (ds : List YNode) (mergeWith : YNode → Option YNode) :
    List YNode :=
  if ds.any (keyMatches key s) then
    ds.map (fun a => if keyMatches key s a then (mergeWith a).getD a else a)
  else ds ++ [s]

/-- Modelled from the spec: the associative key of two sequences to be merged:
the first of the keys the schema knows (`keys`, e.g. `name`) that every element
of both sequences has; `none` when there is none. -/
def assocKey (keys : List Str) (ss ds : List YNode) : Option Str :=
  keys.find? (fun k => (ss ++ ds).all (fun e => (keyValue k e).isSome))

mutual

/-- Modelled from the spec: the recursive two-way merge of `merge.Merge`
(package `yaml/walk/merge`, not part of the sources) of the overriding node
into the accumulator's node; `none` means the accumulator's field is deleted.
`keys` are the associative keys the schema knows.  Rules of the spec: an
explicit null deletes; a scalar wins over what the accumulator has; two
mappings are merged recursively; two sequences are merged by associative key
when they have one and the accumulator's is replaced otherwise.  Where the
spec is silent (the two nodes are of different kinds) the overriding node
wins. -/
def mergeNode (keys : List Str) : YNode → YNode → Option YNode
  | .null, _ => none
  | .scalar v, _ => some (.scalar v)
  | .mapping sf, .mapping df => some (.mapping (mergeFields keys sf df))
  | .mapping sf, _ => some (.mapping sf)
  | .sequence ss, .sequence ds => some (.sequence (mergeElems keys (assocKey keys ss ds) ss ds))
  | .sequence ss, _ => some (.sequence ss)

/-- Modelled from the spec: the fields of the overriding mapping merged one
after the other into the fields of the accumulator. -/
def mergeFields (keys : List Str) :
    List (Str × YNode) → List (Str × YNode) → List (Str × YNode)
  | [], df => df
  | (name, sv) :: rest, df =>
    mergeFields keys rest (mergeField df name sv (fun dv => mergeNode keys sv dv))

/-- Modelled from the spec: the overriding sequence merged into the
accumulator's sequence `ds`: element by element on the associative key when
there is one (`some key`), and replacing the accumulator's sequence
otherwise. -/
def mergeElems (keys : List Str) (key : Option Str) : List YNode → List YNode → List YNode
  | [], ds =>
    match key with
    | some _ => ds
    | none => []
  | s :: rest, ds =>
    match key with
    | some k => mergeElems keys key rest (mergeElem k s ds (fun a => mergeNode keys s a))
    | none => s :: mergeElems keys key rest ds

end

/-- Modelled from the spec: `merge.Merge(src, dest)`, the overriding document
`src` merged into the accumulator `dest`; a document cleared by an overriding
null is the null document.  The merge policy is total: it never fails. -/
def Merge (keys : List Str) (src dest : YNode) : Except Error YNode :=
  .ok ((mergeNode keys src dest).getD .null)

/-- The `merge.Merge` of the model as `Filter` takes it: it acts on no state
beyond the documents. -/
def treeMerge (keys : List Str) : YNode → YNode → Unit → Except Error YNode × Unit :=
  fun src dest s => (Merge keys src dest, s)

/-- Identity extraction for tree documents: the scalars under `apiVersion`,
`kind`, `metadata.namespace` and `metadata.name`, an absent field reading as
the empty string. -/
def treeGetMeta (d : YNode) : Except Error ResourceMeta :=
  let field := fun (path : List Str) =>
    match d.Lookup path with
    | some (.scalar v) => v
    | _ => []
  .ok { ApiVersion := field ["apiVersion".toList], Kind := field ["kind".toList],
        Namespace := field ["metadata".toList, "namespace".toList],
        Name := field ["metadata".toList, "name".toList] }

/-! ### Concrete documents -/

/-- The accumulator `{foo: 1, bar: 2}`. -/
def exAccumulator : YNode :=
  .mapping [("foo".toList, .scalar "1".toList), ("bar".toList, .scalar "2".toList)]

/-- The overriding document `{bar: null}`. -/
def exOverridingNull : YNode := .mapping [("bar".toList, .null)]

/-- A sequence element `{name: <name>, v: <v>}`. -/
def exElem (name v : Str) : YNode :=
  .mapping [("name".toList, .scalar name), ("v".toList, .scalar v)]

/-- The accumulator `{items: [{name: a, v: 1}, {name: b, v: 2}]}`. -/
def exAccumulatorList : YNode :=
  .mapping [("items".toList, .sequence [exElem "a".toList "1".toList, exElem "b".toList "2".toList])]

/-- The overriding document `{items: [{name: b, v: 3}, {name: c, v: 4}]}`. -/
def exOverridingList : YNode :=
  .mapping [("items".toList, .sequence [exElem "b".toList "3".toList, exElem "c".toList "4".toList])]

/-- A schema knowing `name` as associative key. -/
def exKeys : List Str := ["name".toList]

/-- A document of the examples: its meta and the field settings it carries. -/
structure ExDoc where
  meta : ResourceMeta
  fields : List Str

/-- Meta of a `v1` `ConfigMap` in namespace `default` with the given name. -/
def exMeta (name : Str) : ResourceMeta :=
  { ApiVersion := "v1".toList, Kind := "ConfigMap".toList, Namespace := "default".toList,
    Name := name }

/-- Extraction that succeeds on every document. -/
def exGetMeta : ExDoc → Except Error ResourceMeta := fun d => .ok d.meta

/-- Extraction that fails on a document that carries no field. -/
def exGetMetaFailing : ExDoc → Except Error ResourceMeta :=
  fun d => if d.fields = [] then .error "missing metadata" else .ok d.meta

/-- A merge result: the destination followed by the settings of the source. -/
def exM : ExDoc → ExDoc → Except Error ExDoc :=
  fun src dest => .ok { dest with fields := dest.fields ++ src.fields }

/-- The merge `exM`, counting its calls in the state. -/
def exMerge : ExDoc → ExDoc → Nat → Except Error ExDoc × Nat :=
  fun src dest n => (exM src dest, n + 1)

/-- Three documents named `a` around one named `b`. -/
def exInput : List ExDoc :=
  [⟨exMeta "a".toList, ["x".toList]⟩, ⟨exMeta "b".toList, ["y".toList]⟩,
    ⟨exMeta "a".toList, ["z".toList]⟩, ⟨exMeta "a".toList, ["w".toList]⟩]

/-- Three documents with one identity key. -/
def exSameKey : List ExDoc :=
  [⟨exMeta "a".toList, ["x".toList]⟩, ⟨exMeta "a".toList, ["z".toList]⟩,
    ⟨exMeta "a".toList, ["w".toList]⟩]

/-- An input whose last document has no meta. -/
def exInputFailing : List ExDoc :=
  [⟨exMeta "a".toList, ["x".toList]⟩, ⟨exMeta "a".toList, ["z".toList]⟩,
    ⟨exMeta "b".toList, []⟩]

end merge

namespace diff

/-- Modelled from the spec: the content of a file of a package: the package
descriptor (Kptfile), whose `upstream` field records the provenance of the
package, or any other file. -/
inductive Content where
  | kptfile (upstream : Str) (other : Str)
  | resource (text : Str)
  deriving DecidableEq

/-- Modelled from the spec: a package: its top-level files by relative path,
and its nested sub-packages by directory. -/
inductive Pkg where
  | mk (files : List (Str × Content)) (subPackages : List (Str × Pkg))

/-- The top-level files of a package. -/
def Pkg.files : Pkg → List (Str × Content)
  | .mk files _ => files

/-- The content of a file with the provenance field the diff ignores blanked. -/
def Content.ignoreUpstream : Content → Content
  | .kptfile _ other => .kptfile [] other
  | .resource text => .resource text

/-- The file of a package at a relative path, if there is one. -/
def fileGet : List (Str × Content) → Str → Option Content
  | [], _ => none
  | (p, c) :: rest, path => if p = path then some c else fileGet rest path

/-- Two packages differ at `path`: the file is in one of them only, or its
content, the upstream field of the Kptfile apart, is not the same. -/
def differsAt (files1 files2 : List (Str × Content)) (path : Str) : Bool :=
  decide ((fileGet files1 path).map Content.ignoreUpstream ≠
    (fileGet files2 path).map Content.ignoreUpstream)

/-- Modelled from the spec: `PkgDiff` (package `diff`, of which only the tests
are part of the sources): the set of relative paths whose content differs
between two packages, restricted to the top-level package (nested
sub-packages are not compared) and ignoring the upstream field of the
Kptfile. -/
def PkgDiff (pkg1 pkg2 : Pkg) : List Str :=
  ((pkg1.files.map Prod.fst ++ pkg2.files.map Prod.fst).dedup).filter
    (differsAt pkg1.files pkg2.files)

/-- The deployment of the tests. -/
def exDeployment : Str × Content := ("deployment.yaml".toList, .resource "kind: Deployment".toList)

/-- The config map of the tests. -/
def exConfigMap : Str × Content := ("configmap.yaml".toList, .resource "kind: ConfigMap".toList)

/-- A package with a Kptfile of the given upstream, the deployment, and one
sub-package holding the given file. -/
def exPkg (upstream : Str) (nested : Str × Content) : Pkg :=
  .mk [("Kptfile".toList, .kptfile upstream "name: pkg".toList), exDeployment]
    [("subpackage".toList, .mk [("Kptfile".toList, .kptfile [] "name: sub".toList), nested] [])]

end diff

/-! # Properties -/

/-! ## Facts about the string helpers -/

theorem stringsSplitLoop_dot (s cur : Str) :
    stringsSplitLoop ['.'] s 0 cur = List.splitOnP.go (fun c => c == '.') s cur := by
  induction s generalizing cur with
  | nil => simp [stringsSplitLoop, List.splitOnP.go]
  | cons c cs ih =>
    by_cases h : c = '.'
    · subst h
      simp [stringsSplitLoop, List.splitOnP.go, List.isPrefixOf, ih]
    · have h2 : ¬ ('.' = c) := fun e => h e.symm
      simp [stringsSplitLoop, List.splitOnP.go, List.isPrefixOf, ih, h, h2]

theorem stringsSplit_dot (s : Str) :
    stringsSplit s search.PathDelimiter = s.splitOn '.' := by
  simp [stringsSplit, search.PathDelimiter, stringsSplitLoop_dot, List.splitOn, List.splitOnP]

theorem stringsSplit_dot_ne_nil (s : Str) : stringsSplit s search.PathDelimiter ≠ [] := by
  rw [stringsSplit_dot]
  exact List.splitOnP_ne_nil _ _

theorem stringsContains_star (s : Str) : stringsContains s ['*'] = true ↔ '*' ∈ s := by
  induction s with
  | nil => simp [stringsContains]
  | cons c cs ih =>
    simp only [stringsContains, Bool.or_eq_true, ih, List.mem_cons]
    simp [List.isPrefixOf]

theorem splitOn_dot_cons (c : Char) (cs : Str) :
    (c :: cs).splitOn '.' =
      if c = '.' then [] :: cs.splitOn '.' else (cs.splitOn '.').modifyHead (List.cons c) := by
  simp [List.splitOn, List.splitOnP_cons]

/-- A character other than the delimiter ends up in one of the segments. -/
theorem mem_splitOn_dot (x : Char) (hx : x ≠ '.') (s : Str) (hmem : x ∈ s) :
    ∃ seg ∈ s.splitOn '.', x ∈ seg := by
  induction s with
  | nil => simp at hmem
  | cons c cs ih =>
    rw [splitOn_dot_cons]
    by_cases h : c = '.'
    · subst h
      rcases List.mem_cons.1 hmem with e | hin
      · exact absurd e hx
      · obtain ⟨seg, hs, hxs⟩ := ih hin
        exact ⟨seg, by simp [hs], hxs⟩
    · simp only [h, if_false]
      have hne : cs.splitOn '.' ≠ [] := List.splitOnP_ne_nil _ _
      obtain ⟨hd, tl, e⟩ := List.exists_cons_of_ne_nil hne
      rw [e] at ih ⊢
      simp only [List.modifyHead_cons, List.mem_cons]
      rcases List.mem_cons.1 hmem with e2 | hin
      · exact ⟨c :: hd, Or.inl rfl, by simp [e2]⟩
      · obtain ⟨seg, hs, hxs⟩ := ih hin
        rcases List.mem_cons.1 hs with e3 | h3
        · exact ⟨c :: hd, Or.inl rfl, by simp [← e3, hxs]⟩
        · exact ⟨seg, Or.inr h3, hxs⟩

namespace search

theorem isAbsPathLoop_iff (l : List Str) :
    isAbsPathLoop l = true ↔ ∀ seg ∈ l, seg ≠ [] ∧ '*' ∉ seg := by
  induction l with
  | nil => simp [isAbsPathLoop]
  | cons e rest ih =>
    by_cases h1 : e = []
    · simp [isAbsPathLoop, h1]
    · by_cases h2 : '*' ∈ e
      · simp [isAbsPathLoop, h1, (stringsContains_star e).2 h2, h2]
      · have h3 : stringsContains e ['*'] = false := by
          cases hc : stringsContains e ['*'] with
          | false => rfl
          | true => exact absurd ((stringsContains_star e).1 hc) h2
        simp [isAbsPathLoop, h1, h2, h3, ih]

theorem isAbsPath_iff (path : Str) :
    isAbsPath path = true ↔ ∀ seg ∈ stringsSplit path PathDelimiter, seg ≠ [] ∧ '*' ∉ seg := by
  have hne := stringsSplit_dot_ne_nil path
  have hlen : (stringsSplit path PathDelimiter).length ≠ 0 := by
    intro h; exact hne (List.length_eq_zero.1 h)
  simp only [isAbsPath, hlen, if_false]
  exact isAbsPathLoop_iff _

/-- An absolute path is not empty and does not start with the delimiter. -/
theorem isAbsPath_head (path : Str) (h : isAbsPath path = true) :
    path ≠ [] ∧ ∀ rest, path ≠ '.' :: rest := by
  rw [isAbsPath_iff, stringsSplit_dot] at h
  constructor
  · rintro rfl
    exact (h [] (by simp [List.splitOn])).1 rfl
  · rintro rest rfl
    rw [splitOn_dot_cons] at h
    exact (h [] (by simp)).1 rfl

end search

namespace search

theorem pathMatch_of_abs (sr : SearchReplace) (path : Str) (habs : isAbsPath sr.ByPath = true) :
    sr.pathMatch path = (decide (sr.ByPath = stringsTrimPrefix path PathDelimiter), none) := by
  have hne := (isAbsPath_head _ habs).1
  simp [SearchReplace.pathMatch, hne, habs]

/-- `visitScalar` once the path comparison and the value comparison have been evaluated. -/
theorem visitScalar_eval (sr : SearchReplace) (object : ScalarNode) (path : Str) (pm vm : Bool)
    (hpm : sr.pathMatch path = (pm, none))
    (hvm : (if object.Value = sr.ByValue then some true else sr.regexMatch object.Value) = some vm) :
    sr.visitScalar object path =
      if (vm && pm || vm && decide (sr.ByPath = []) ||
          pm && decide (sr.ByValue = []) && decide (sr.ByValueRegex = [])) = true then
        .returned (matchedState sr object path) none
      else .returned (sr, object) none := by
  unfold SearchReplace.visitScalar
  rw [hpm]
  simp only [hvm]
  split
  · unfold matchedState
    by_cases hf : sr.filePath = [] <;> by_cases hl : sr.PutLiteral = [] <;> simp [hf, hl]
  · rfl

theorem counted_eval (sr : SearchReplace) (object : ScalarNode) (path : Str) (pm vm : Bool)
    (hpm : sr.pathMatch path = (pm, none))
    (hvm : (if object.Value = sr.ByValue then some true else sr.regexMatch object.Value) = some vm) :
    counted sr object path =
      (vm && pm || vm && decide (sr.ByPath = []) ||
          pm && decide (sr.ByValue = []) && decide (sr.ByValueRegex = [])) := by
  unfold counted
  rw [visitScalar_eval sr object path pm vm hpm hvm]
  cases hc : (vm && pm || vm && decide (sr.ByPath = []) ||
          pm && decide (sr.ByValue = []) && decide (sr.ByValueRegex = []))
  · simp
  · simp [matchedState]

theorem counted_of_panic (sr : SearchReplace) (object : ScalarNode) (path : Str) (pm : Bool)
    (hpm : sr.pathMatch path = (pm, none))
    (hvm : (if object.Value = sr.ByValue then some true else sr.regexMatch object.Value) = none) :
    sr.visitScalar object path = .panicked ∧ counted sr object path = false := by
  unfold counted SearchReplace.visitScalar
  rw [hpm]
  simp only [hvm, and_self]

end search

namespace search

/-- The value comparison of `visitScalar`, by cases: `none` is the panic on an
unset regex. -/
theorem valueMatch_cases (sr : SearchReplace) (v : Str) :
    ((if v = sr.ByValue then some true else sr.regexMatch v) = none ∧
        v ≠ sr.ByValue ∧ sr.ByValueRegex ≠ [] ∧ sr.regex = none ∧ regexMatches sr v = false) ∨
    ((if v = sr.ByValue then some true else sr.regexMatch v) =
        some (decide (v = sr.ByValue) || regexMatches sr v) ∧
      (sr.ByValueRegex ≠ [] → v ≠ sr.ByValue → sr.regex ≠ none)) := by
  unfold SearchReplace.regexMatch regexMatches
  by_cases hv : v = sr.ByValue
  · right; simp [hv]
  · by_cases hr : sr.ByValueRegex = []
    · right; simp [hv, hr]
    · cases hre : sr.regex with
      | none => left; simp [hv, hr]
      | some re => right; simp [hv, hr]

/-- With an absolute path and a literal or a regex configured, `pathMatch`
returns no error and `visitScalar` counts a scalar leaf exactly when the
traversal path, leading delimiter stripped, equals `ByPath` and the scalar
equals the field `ByValue` (the unset `ByValue`, the empty string, included) or
the configured regex matches it.  When the regex of a non-empty `ByValueRegex`
has been compiled the visit returns a nil error, and a leaf that is not counted
leaves receiver and scalar as they were. -/
theorem visitScalar_path_and_value (sr : SearchReplace) (object : ScalarNode) (path : Str)
    (hpath : sr.ByPath ≠ []) (habs : isAbsPath sr.ByPath = true)
    (hval : sr.ByValue ≠ [] ∨ sr.ByValueRegex ≠ []) :
    sr.pathMatch path = (decide (sr.ByPath = stringsTrimPrefix path PathDelimiter), none) ∧
    (counted sr object path = true ↔
      stringsTrimPrefix path PathDelimiter = sr.ByPath ∧
        (object.Value = sr.ByValue ∨ regexMatches sr object.Value = true)) ∧
    ((sr.ByValueRegex ≠ [] → sr.regex ≠ none) →
      ∃ st, sr.visitScalar object path = .returned st none ∧
        (counted sr object path = false → st = (sr, object))) := by
  have hpm := pathMatch_of_abs sr path habs
  have hnv : (decide (sr.ByValue = []) && decide (sr.ByValueRegex = [])) = false := by
    rcases hval with h | h <;> simp [h]
  refine ⟨hpm, ?_, ?_⟩
  · rcases valueMatch_cases sr object.Value with ⟨hvm, hv, _, _, hrm⟩ | ⟨hvm, _⟩
    · rw [(counted_of_panic sr object path _ hpm hvm).2]
      simp [hv, hrm]
    · rw [counted_eval sr object path _ _ hpm hvm]
      simp only [hpath, decide_False, Bool.and_false, Bool.or_false, Bool.and_assoc, hnv,
        Bool.and_eq_true, Bool.or_eq_true, decide_eq_true_eq]
      constructor
      · rintro ⟨h1, h2⟩; exact ⟨h2.symm, h1⟩
      · rintro ⟨h1, h2⟩; exact ⟨h2, h1.symm⟩
  · intro hwf
    rcases valueMatch_cases sr object.Value with ⟨_, _, hr, hre, _⟩ | ⟨hvm, _⟩
    · exact absurd hre (hwf hr)
    · rw [counted_eval sr object path _ _ hpm hvm, visitScalar_eval sr object path _ _ hpm hvm]
      split
      · next h => exact ⟨_, rfl, fun h2 => by rw [h] at h2; cases h2⟩
      · exact ⟨_, rfl, fun _ => rfl⟩

/-- The characterisation of counted leaves at path `a.b` with the literal `x`. -/
theorem visitScalar_path_and_value_witness :
    (counted exPathAndValue ⟨"x".toList⟩ ".a.b".toList = true ↔
      stringsTrimPrefix ".a.b".toList PathDelimiter = exPathAndValue.ByPath ∧
        ("x".toList = exPathAndValue.ByValue ∨ regexMatches exPathAndValue "x".toList = true)) :=
  (visitScalar_path_and_value exPathAndValue ⟨"x".toList⟩ ".a.b".toList (by decide) (by decide)
    (Or.inl (by decide))).2.1

/-- C1: with the absolute path `a.b` and only the regex `^foo$` configured as
value filter, the empty scalar at `.a.b` matches on the path alone (the regex
rejects it and no literal is configured), yet `visitScalar` counts it: `Count`
becomes 1 and the scalar is overwritten with the replacement `bar`. -/
theorem visitScalar_path_and_regex_empty_scalar :
    exPathAndRegex.ByPath ≠ [] ∧
    isAbsPath exPathAndRegex.ByPath = true ∧
    exPathAndRegex.ByValue = [] ∧
    exPathAndRegex.ByValueRegex ≠ [] ∧
    exPathAndRegex.pathMatch ".a.b".toList = (true, none) ∧
    exRegexFoo.Match [] = false ∧
    regexMatches exPathAndRegex [] = false ∧
    counted exPathAndRegex ⟨[]⟩ ".a.b".toList = true ∧
    exPathAndRegex.visitScalar ⟨[]⟩ ".a.b".toList =
      .returned (matchedState exPathAndRegex ⟨[]⟩ ".a.b".toList) none ∧
    (matchedState exPathAndRegex ⟨[]⟩ ".a.b".toList).1.Count = 1 ∧
    (matchedState exPathAndRegex ⟨[]⟩ ".a.b".toList).2.Value = "bar".toList := by
  have hpm : exPathAndRegex.pathMatch ".a.b".toList = (true, none) := by decide
  have hvm : (if (⟨[]⟩ : ScalarNode).Value = exPathAndRegex.ByValue then some true
      else exPathAndRegex.regexMatch (⟨[]⟩ : ScalarNode).Value) = some true := by decide
  refine ⟨by decide, by decide, by decide, by decide, hpm, by decide, by decide, ?_, ?_,
    by decide, by decide⟩
  · rw [counted_eval exPathAndRegex ⟨[]⟩ ".a.b".toList true true hpm hvm]
    decide
  · rw [visitScalar_eval exPathAndRegex ⟨[]⟩ ".a.b".toList true true hpm hvm]
    rfl

/-- C9: with only an absolute path configured (no literal, no regex),
`visitScalar` always returns a nil error and counts a scalar leaf exactly when
its traversal path, leading delimiter stripped, equals `ByPath`, whatever the
scalar's value: a leaf on the path is left in the matched state and a leaf off
the path leaves everything unchanged. -/
theorem visitScalar_path_only (sr : SearchReplace) (object : ScalarNode) (path : Str)
    (habs : isAbsPath sr.ByPath = true) (hv : sr.ByValue = []) (hr : sr.ByValueRegex = []) :
    (counted sr object path = true ↔ stringsTrimPrefix path PathDelimiter = sr.ByPath) ∧
    (∃ st, sr.visitScalar object path = .returned st none) ∧
    (stringsTrimPrefix path PathDelimiter = sr.ByPath →
      sr.visitScalar object path = .returned (matchedState sr object path) none) ∧
    (stringsTrimPrefix path PathDelimiter ≠ sr.ByPath →
      sr.visitScalar object path = .returned (sr, object) none) := by
  have hpm := pathMatch_of_abs sr path habs
  have hpath := (isAbsPath_head _ habs).1
  rcases valueMatch_cases sr object.Value with ⟨_, _, hr2, _, _⟩ | ⟨hvm, _⟩
  · exact absurd hr hr2
  · rw [counted_eval sr object path _ _ hpm hvm, visitScalar_eval sr object path _ _ hpm hvm]
    by_cases hp : sr.ByPath = stringsTrimPrefix path PathDelimiter
    · have hp2 := hp.symm
      simp [hp2, hv, hr]
    · have hp2 : ¬ stringsTrimPrefix path PathDelimiter = sr.ByPath := fun e => hp e.symm
      simp [hp, hp2, hv, hr, hpath]

theorem visitScalar_path_only_witness :
    (counted exPathOnly ⟨"anything".toList⟩ ".a.b".toList = true ↔
      stringsTrimPrefix ".a.b".toList PathDelimiter = exPathOnly.ByPath) :=
  (visitScalar_path_only exPathOnly ⟨"anything".toList⟩ ".a.b".toList (by decide) (by decide)
    (by decide)).1

/-- With only a compiled regex configured, a leaf is counted exactly when the
regex matches its value or its value is the empty string (which equals the
unset `ByValue`). -/
theorem visitScalar_regex_only (sr : SearchReplace) (object : ScalarNode) (path : Str)
    (re : Regexp) (hr : sr.ByValueRegex ≠ []) (hre : sr.regex = some re)
    (hv : sr.ByValue = []) (hp : sr.ByPath = []) :
    (counted sr object path = true ↔ (object.Value = [] ∨ re.Match object.Value = true)) := by
  have hpm : sr.pathMatch path = (false, none) := by simp [SearchReplace.pathMatch, hp]
  rcases valueMatch_cases sr object.Value with ⟨_, _, _, hre2, _⟩ | ⟨hvm, _⟩
  · rw [hre] at hre2; cases hre2
  · rw [counted_eval sr object path _ _ hpm hvm]
    simp [regexMatches, hre, hr, hv, hp]

/-- C10: with only the regex `^foo$` configured, the empty scalar, which the
regex does not match, is nevertheless counted by `visitScalar`: `Count`
becomes 1 and the scalar is overwritten with the replacement `bar`. -/
theorem visitScalar_regex_only_empty_scalar :
    exRegexFoo.Match [] = false ∧
    regexMatches exRegexOnly [] = false ∧
    counted exRegexOnly ⟨[]⟩ ".a".toList = true ∧
    exRegexOnly.visitScalar ⟨[]⟩ ".a".toList =
      .returned (matchedState exRegexOnly ⟨[]⟩ ".a".toList) none ∧
    (matchedState exRegexOnly ⟨[]⟩ ".a".toList).1.Count = 1 ∧
    (matchedState exRegexOnly ⟨[]⟩ ".a".toList).2.Value = "bar".toList := by
  refine ⟨by decide, by decide, by decide, ?_, by decide, by decide⟩
  have hpm : exRegexOnly.pathMatch ".a".toList = (false, none) := by decide
  have hvm : (if (⟨[]⟩ : ScalarNode).Value = exRegexOnly.ByValue then some true
      else exRegexOnly.regexMatch (⟨[]⟩ : ScalarNode).Value) = some true := by decide
  rw [visitScalar_eval exRegexOnly ⟨[]⟩ ".a".toList false true hpm hvm]
  rfl

end search

theorem mapGet_mapSet_same {κ β : Type} [DecidableEq κ] (m : List (κ × List β)) (k : κ)
    (v : List β) :
    mapGet (mapSet m k v) k = v := by
  induction m with
  | nil => simp [mapSet, mapGet]
  | cons e rest ih =>
    obtain ⟨k', v'⟩ := e
    by_cases h : k' = k
    · simp [mapSet, mapGet, h]
    · simp [mapSet, mapGet, h, ih]

theorem mapGet_mapSet_other {κ β : Type} [DecidableEq κ] (m : List (κ × List β)) (k k2 : κ)
    (v : List β) (hne : k2 ≠ k) : mapGet (mapSet m k v) k2 = mapGet m k2 := by
  induction m with
  | nil => simp [mapSet, mapGet, hne.symm]
  | cons e rest ih =>
    obtain ⟨k', v'⟩ := e
    by_cases h : k' = k
    · subst h
      simp [mapSet, mapGet, hne.symm]
    · by_cases h2 : k' = k2
      · subst h2
        simp [mapSet, mapGet, h]
      · simp [mapSet, mapGet, h, h2, ih]

namespace search

theorem pathMatch_shape (sr : SearchReplace) (path : Str) :
    (∃ e, sr.pathMatch path = (false, some e)) ∨ ∃ pm, sr.pathMatch path = (pm, none) := by
  unfold SearchReplace.pathMatch
  by_cases h1 : sr.ByPath = []
  · right; exact ⟨false, by simp [h1]⟩
  · cases h2 : isAbsPath sr.ByPath
    · left
      exact ⟨"invalid input path, must follow pattern e.g. foo.bar.baz", by simp [h1, h2]⟩
    · right
      exact ⟨decide (sr.ByPath = stringsTrimPrefix path PathDelimiter), by simp [h1, h2]⟩

/-- A counted leaf is left in `matchedState`. -/
theorem visitScalar_of_counted (sr : SearchReplace) (object : ScalarNode) (path : Str)
    (hc : counted sr object path = true) :
    sr.visitScalar object path = .returned (matchedState sr object path) none := by
  rcases pathMatch_shape sr path with ⟨e, hpm⟩ | ⟨pm, hpm⟩
  · exfalso
    unfold counted SearchReplace.visitScalar at hc
    rw [hpm] at hc
    simp at hc
  · cases hvm : (if object.Value = sr.ByValue then some true else sr.regexMatch object.Value) with
    | none =>
      rw [(counted_of_panic sr object path pm hpm hvm).2] at hc
      cases hc
    | some vm =>
      rw [counted_eval sr object path pm vm hpm hvm] at hc
      rw [visitScalar_eval sr object path pm vm hpm hvm, if_pos hc]

/-- C3: for a scalar leaf that `visitScalar` counts, with a non-empty
`filePath`: the visit returns a nil error, `Count` goes up by exactly one, the
scalar's value becomes `PutLiteral` when that is non-empty and is unchanged
otherwise, exactly one entry `<path without its leading delimiter>: <value
after the step>` is appended at the end of `Match[filePath]`, and the lists of
all other locations are unchanged. -/
theorem visitScalar_match_effect (sr : SearchReplace) (object : ScalarNode) (path : Str)
    (hc : counted sr object path = true) (hfile : sr.filePath ≠ []) :
    ∃ sr1 object1, sr.visitScalar object path = .returned (sr1, object1) none ∧
      sr1.Count = sr.Count + 1 ∧
      (sr.PutLiteral ≠ [] → object1.Value = sr.PutLiteral) ∧
      (sr.PutLiteral = [] → object1.Value = object.Value) ∧
      mapGet sr1.Match sr.filePath =
        mapGet sr.Match sr.filePath ++
          [stringsTrimPrefix path PathDelimiter ++ ": ".toList ++ object1.Value] ∧
      (∀ k, k ≠ sr.filePath → mapGet sr1.Match k = mapGet sr.Match k) ∧
      sr1.filePath = sr.filePath := by
  refine ⟨_, _, visitScalar_of_counted sr object path hc, ?_⟩
  refine ⟨rfl, ?_, ?_, ?_, ?_, rfl⟩
  · intro h; simp [matchedState, h]
  · intro h; simp [matchedState, h]
  · simp [matchedState, hfile, mapGet_mapSet_same, sprintfPathVal]
  · intro k hk
    simp [matchedState, hfile, mapGet_mapSet_other _ _ _ _ hk]

theorem visitScalar_match_effect_witness :
    ∃ sr1 object1, exPathAndValue.visitScalar ⟨"x".toList⟩ ".a.b".toList =
        .returned (sr1, object1) none ∧
      sr1.Count = exPathAndValue.Count + 1 ∧
      (exPathAndValue.PutLiteral ≠ [] → object1.Value = exPathAndValue.PutLiteral) ∧
      (exPathAndValue.PutLiteral = [] → object1.Value = "x".toList) ∧
      mapGet sr1.Match exPathAndValue.filePath =
        mapGet exPathAndValue.Match exPathAndValue.filePath ++
          [stringsTrimPrefix ".a.b".toList PathDelimiter ++ ": ".toList ++ object1.Value] ∧
      (∀ k, k ≠ exPathAndValue.filePath → mapGet sr1.Match k = mapGet exPathAndValue.Match k) ∧
      sr1.filePath = exPathAndValue.filePath :=
  visitScalar_match_effect exPathAndValue ⟨"x".toList⟩ ".a.b".toList (by decide) (by decide)

theorem stringsTrimPrefix_dot_cons (q : Str) : stringsTrimPrefix ('.' :: q) PathDelimiter = q := by
  simp [stringsTrimPrefix, PathDelimiter, List.isPrefixOf]

theorem stringsTrimPrefix_other (p : Str) (h : ∀ q, p ≠ '.' :: q) :
    stringsTrimPrefix p PathDelimiter = p := by
  cases p with
  | nil => simp [stringsTrimPrefix, PathDelimiter, List.isPrefixOf]
  | cons c cs =>
    have hc : ¬ ('.' = c) := fun e => h cs (by rw [e])
    simp [stringsTrimPrefix, PathDelimiter, List.isPrefixOf, hc]

/-- C5: `pathMatch` returns `(false, nil)` when `ByPath` is empty, an error
when `ByPath` is non-empty and not absolute, and otherwise `(b, nil)` where `b`
holds exactly when the traversal path with its leading delimiter stripped
equals `ByPath`; a traversal path that is a proper prefix or a proper extension
of `ByPath` never matches. -/
theorem pathMatch_spec (sr : SearchReplace) (p : Str) :
    (sr.ByPath = [] → sr.pathMatch p = (false, none)) ∧
    (sr.ByPath ≠ [] → isAbsPath sr.ByPath = false → ∃ e, sr.pathMatch p = (false, some e)) ∧
    (sr.ByPath ≠ [] → isAbsPath sr.ByPath = true →
      ∃ b, sr.pathMatch p = (b, none) ∧
        (b = true ↔ stringsTrimPrefix p PathDelimiter = sr.ByPath) ∧
        (∀ q, p = '.' :: q → (b = true ↔ q = sr.ByPath)) ∧
        ((∀ q, p ≠ '.' :: q) → (b = true ↔ p = sr.ByPath)) ∧
        (p <+: sr.ByPath → p ≠ sr.ByPath → b = false) ∧
        (sr.ByPath <+: p → p ≠ sr.ByPath → b = false)) := by
  refine ⟨fun h => by simp [SearchReplace.pathMatch, h],
    fun h1 h2 => ⟨"invalid input path, must follow pattern e.g. foo.bar.baz",
      by simp [SearchReplace.pathMatch, h1, h2]⟩, fun _ habs => ?_⟩
  refine ⟨_, pathMatch_of_abs sr p habs, ?_, ?_, ?_, ?_, ?_⟩
  · simp only [decide_eq_true_eq]; exact eq_comm
  · rintro q rfl
    rw [stringsTrimPrefix_dot_cons]; simp only [decide_eq_true_eq]; exact eq_comm
  · intro h
    rw [stringsTrimPrefix_other p h]; simp only [decide_eq_true_eq]; exact eq_comm
  · intro hpre hne
    simp only [decide_eq_false_iff_not]
    intro heq
    cases p with
    | nil => simp [stringsTrimPrefix, PathDelimiter, List.isPrefixOf] at heq; exact hne heq.symm
    | cons c cs =>
      by_cases hc : c = '.'
      · subst hc
        rw [stringsTrimPrefix_dot_cons] at heq
        have hlen := hpre.length_le
        rw [heq] at hlen
        simp at hlen
      · have : stringsTrimPrefix (c :: cs) PathDelimiter = c :: cs :=
          stringsTrimPrefix_other _ (fun q e => hc (by injection e))
        rw [this] at heq
        exact hne heq.symm
  · intro hpre hne
    simp only [decide_eq_false_iff_not]
    intro heq
    cases p with
    | nil => simp [stringsTrimPrefix, PathDelimiter, List.isPrefixOf] at heq; exact hne heq.symm
    | cons c cs =>
      by_cases hc : c = '.'
      · subst hc
        rw [stringsTrimPrefix_dot_cons] at heq
        obtain ⟨t, ht⟩ := hpre
        cases hb : sr.ByPath with
        | nil => exact (isAbsPath_head _ habs).1 hb
        | cons d ds =>
          rw [hb] at ht
          injection ht with h1 _
          exact (isAbsPath_head _ habs).2 ds (by rw [hb, h1])
      · have : stringsTrimPrefix (c :: cs) PathDelimiter = c :: cs :=
          stringsTrimPrefix_other _ (fun q e => hc (by injection e))
        rw [this] at heq
        exact hne heq.symm

theorem pathMatch_spec_witness :
    ∃ b, exPathOnly.pathMatch ".a.b".toList = (b, none) ∧
        (b = true ↔ stringsTrimPrefix ".a.b".toList PathDelimiter = exPathOnly.ByPath) ∧
        (∀ q, ".a.b".toList = '.' :: q → (b = true ↔ q = exPathOnly.ByPath)) ∧
        ((∀ q, ".a.b".toList ≠ '.' :: q) → (b = true ↔ ".a.b".toList = exPathOnly.ByPath)) ∧
        (".a.b".toList <+: exPathOnly.ByPath → ".a.b".toList ≠ exPathOnly.ByPath → b = false) ∧
        (exPathOnly.ByPath <+: ".a.b".toList → ".a.b".toList ≠ exPathOnly.ByPath → b = false) :=
  (pathMatch_spec exPathOnly ".a.b".toList).2.2 (by decide) (by decide)

end search

namespace search

/-- C6: `isAbsPath path` holds exactly when every segment of `path` split on
the delimiter `.` is non-empty and contains no `*` (the segments joined by the
delimiter give `path` back); it is false for the empty string and for a path
with an empty segment or with a `*` anywhere, and true for every dot-joined
non-empty list of non-empty, dot-free, wildcard-free segments. -/
theorem isAbsPath_segments (path : Str) :
    (isAbsPath path = true ↔
      ∀ seg ∈ stringsSplit path PathDelimiter, seg ≠ [] ∧ '*' ∉ seg) ∧
    PathDelimiter.intercalate (stringsSplit path PathDelimiter) = path ∧
    isAbsPath [] = false ∧
    ((∃ seg ∈ stringsSplit path PathDelimiter, seg = [] ∨ '*' ∈ seg) → isAbsPath path = false) ∧
    ('*' ∈ path → isAbsPath path = false) ∧
    (∀ segs : List Str, segs ≠ [] → (∀ seg ∈ segs, seg ≠ [] ∧ '.' ∉ seg ∧ '*' ∉ seg) →
      stringsSplit (PathDelimiter.intercalate segs) PathDelimiter = segs ∧
        isAbsPath (PathDelimiter.intercalate segs) = true) := by
  have hiff := isAbsPath_iff path
  have hfalse : (∃ seg ∈ stringsSplit path PathDelimiter, seg = [] ∨ '*' ∈ seg) →
      isAbsPath path = false := by
    rintro ⟨seg, hmem, hbad⟩
    cases h : isAbsPath path with
    | false => rfl
    | true =>
      have := (hiff.1 h) seg hmem
      rcases hbad with e | e
      · exact absurd e this.1
      · exact absurd e this.2
  refine ⟨hiff, ?_, by decide, hfalse, ?_, ?_⟩
  · rw [stringsSplit_dot]
    exact List.intercalate_splitOn path '.'
  · intro hstar
    apply hfalse
    obtain ⟨seg, hs, hx⟩ := mem_splitOn_dot '*' (by decide) path hstar
    exact ⟨seg, by rw [stringsSplit_dot]; exact hs, Or.inr hx⟩
  · intro segs hne hsegs
    have hsplit : stringsSplit (PathDelimiter.intercalate segs) PathDelimiter = segs := by
      rw [stringsSplit_dot]
      exact List.splitOn_intercalate segs '.' (fun l hl => (hsegs l hl).2.1) hne
    refine ⟨hsplit, ?_⟩
    rw [isAbsPath_iff, hsplit]
    exact fun seg hs => ⟨(hsegs seg hs).1, (hsegs seg hs).2.2⟩

theorem isAbsPath_segments_witness :
    stringsSplit (PathDelimiter.intercalate ["a".toList, "b".toList]) PathDelimiter =
        ["a".toList, "b".toList] ∧
      isAbsPath (PathDelimiter.intercalate ["a".toList, "b".toList]) = true :=
  (isAbsPath_segments "a.b".toList).2.2.2.2.2 ["a".toList, "b".toList] (by decide) (by decide)

end search

theorem fieldGet_fieldSet_same (fields : List (Str × YNode)) (name : Str) (value : YNode) :
    fieldGet (fieldSet fields name value) name = some value := by
  induction fields with
  | nil => simp [fieldSet, fieldGet]
  | cons e rest ih =>
    obtain ⟨k, v⟩ := e
    by_cases h : k = name
    · simp [fieldSet, fieldGet, h]
    · simp [fieldSet, fieldGet, h, ih]

theorem fieldGet_fieldSet_other (fields : List (Str × YNode)) (name other : Str) (value : YNode)
    (hne : other ≠ name) : fieldGet (fieldSet fields name value) other = fieldGet fields other := by
  induction fields with
  | nil => simp [fieldSet, fieldGet, hne.symm]
  | cons e rest ih =>
    obtain ⟨k, v⟩ := e
    by_cases h : k = name
    · subst h
      simp [fieldSet, fieldGet, hne.symm]
    · by_cases h2 : k = other
      · subst h2
        simp [fieldSet, fieldGet, h]
      · simp [fieldSet, fieldGet, h, h2, ih]

namespace search

theorem mappingsAlong_empty (path : List Str) : mappingsAlong (.mapping []) path = true := by
  cases path <;> simp [mappingsAlong, fieldGet]

/-- Lookup-or-create of the parent mapping succeeds on a document whose nodes
along the path are mappings or absent; the node it returns is a mapping, and
whatever is put back in its place is found again under the parent path. -/
theorem LookupCreate_of_mappingsAlong (init : List Str) (last : Str) :
    ∀ n : YNode, mappingsAlong n (init ++ [last]) = true →
      ∃ fields plug, n.LookupCreate init = .ok (.mapping fields, plug) ∧
        ∀ (x : YNode) (qs : List Str), (plug x).Lookup (init ++ qs) = x.Lookup qs := by
  induction init with
  | nil =>
    intro n h
    cases n with
    | mapping fields => exact ⟨fields, fun x => x, rfl, fun _ _ => rfl⟩
    | null => simp [mappingsAlong] at h
    | scalar v => simp [mappingsAlong] at h
    | sequence es => simp [mappingsAlong] at h
  | cons p ps ih =>
    intro n h
    cases n with
    | null => simp [mappingsAlong] at h
    | scalar v => simp [mappingsAlong] at h
    | sequence es => simp [mappingsAlong] at h
    | mapping fields =>
      have hchild : mappingsAlong ((fieldGet fields p).getD (.mapping [])) (ps ++ [last]) = true := by
        cases hg : fieldGet fields p with
        | none => exact mappingsAlong_empty _
        | some child =>
          simp only [List.cons_append, mappingsAlong, hg] at h
          exact h
      obtain ⟨f2, plug, hlc, hplug⟩ := ih _ hchild
      refine ⟨f2, fun x => .mapping (fieldSet fields p (plug x)), ?_, ?_⟩
      · simp only [YNode.LookupCreate, hlc]
      · intro x qs
        simp only [List.cons_append, YNode.Lookup, fieldGet_fieldSet_same]
        exact hplug x qs

theorem shouldPutLiteralByPath_iff (sr : SearchReplace) :
    sr.shouldPutLiteralByPath = true ↔
      isAbsPath sr.ByPath = true ∧ sr.ByValue = [] ∧ sr.ByValueRegex = [] ∧ sr.PutLiteral ≠ [] := by
  simp [SearchReplace.shouldPutLiteralByPath, and_assoc]

/-- C4: with an absolute `ByPath`, no value filter and a non-empty `PutLiteral`,
on a document with readable file annotations whose nodes along `ByPath` are
mappings or absent, `Filter` returns a nil error whatever the visitor is (no
traversal is made); afterwards looking up `ByPath` in the document gives the
scalar `PutLiteral`, `Count` has gone up by exactly one, and the entry
`<ByPath>: <PutLiteral>` has been appended to `Match` under the document's file
path, the other locations being unchanged. -/
theorem Filter_fast_path (GetFileAnnotations : YNode → Except Error (Str × Str))
    (accept : SearchReplace → YNode → Outcome (SearchReplace × YNode))
    (sr : SearchReplace) (object : YNode) (filePath index : Str)
    (hfile : GetFileAnnotations object = .ok (filePath, index))
    (habs : isAbsPath sr.ByPath = true) (hv : sr.ByValue = []) (hr : sr.ByValueRegex = [])
    (hput : sr.PutLiteral ≠ [])
    (hmaps : mappingsAlong object (stringsSplit sr.ByPath PathDelimiter) = true) :
    ∃ sr1 object1,
      (∀ accept2, sr.Filter GetFileAnnotations accept2 object = .returned (sr1, object1) none) ∧
      sr.Filter GetFileAnnotations accept object = .returned (sr1, object1) none ∧
      object1.Lookup (stringsSplit sr.ByPath PathDelimiter) = some (.scalar sr.PutLiteral) ∧
      sr1.Count = sr.Count + 1 ∧
      mapGet sr1.Match filePath =
        mapGet sr.Match filePath ++ [sr.ByPath ++ ": ".toList ++ sr.PutLiteral] ∧
      (∀ k, k ≠ filePath → mapGet sr1.Match k = mapGet sr.Match k) := by
  have hne := stringsSplit_dot_ne_nil sr.ByPath
  have hsplit := (List.dropLast_append_getLast hne).symm
  generalize hpath : stringsSplit sr.ByPath PathDelimiter = path at hne hsplit hmaps
  have hlast : path.getLast? = some (path.getLast hne) := List.getLast?_eq_getLast_of_ne_nil hne
  rw [hsplit] at hmaps
  obtain ⟨fields, plug, hlc, hplug⟩ :=
    LookupCreate_of_mappingsAlong path.dropLast (path.getLast hne) object hmaps
  have hshould : ({ sr with filePath := filePath } : SearchReplace).shouldPutLiteralByPath = true :=
    (shouldPutLiteralByPath_iff _).2 ⟨habs, hv, hr, hput⟩
  have hrun : ∀ accept2, sr.Filter GetFileAnnotations accept2 object =
      .returned
        ({ sr with
            filePath := filePath
            Match := mapSet sr.Match filePath
              (mapGet sr.Match filePath ++ [sprintfPathVal sr.ByPath sr.PutLiteral])
            Count := sr.Count + 1 },
          plug (.mapping (fieldSet fields (path.getLast hne) (.scalar sr.PutLiteral)))) none := by
    intro accept2
    simp only [SearchReplace.Filter, hfile, hshould, if_true, SearchReplace.putLiteral, hpath,
      hlast, hlc, YNode.SetField]
  refine ⟨_, _, hrun, hrun accept, ?_, rfl, ?_, ?_⟩
  · have h := hplug (.mapping (fieldSet fields (path.getLast hne) (.scalar sr.PutLiteral)))
      [path.getLast hne]
    rw [← hsplit] at h
    rw [h]
    simp [YNode.Lookup, fieldGet_fieldSet_same]
  · simp [mapGet_mapSet_same, sprintfPathVal]
  · intro k hk
    simp [mapGet_mapSet_other _ _ _ _ hk]

theorem Filter_fast_path_witness :
    ∃ sr1 object1,
      (∀ accept2, exPutLiteral.Filter exGetFileAnnotations accept2 exDocument =
        .returned (sr1, object1) none) ∧
      exPutLiteral.Filter exGetFileAnnotations exAccept exDocument = .returned (sr1, object1) none ∧
      object1.Lookup (stringsSplit exPutLiteral.ByPath PathDelimiter) =
        some (.scalar exPutLiteral.PutLiteral) ∧
      sr1.Count = exPutLiteral.Count + 1 ∧
      mapGet sr1.Match "f.yaml".toList =
        mapGet exPutLiteral.Match "f.yaml".toList ++
          [exPutLiteral.ByPath ++ ": ".toList ++ exPutLiteral.PutLiteral] ∧
      (∀ k, k ≠ "f.yaml".toList → mapGet sr1.Match k = mapGet exPutLiteral.Match k) :=
  Filter_fast_path exGetFileAnnotations exAccept exPutLiteral exDocument "f.yaml".toList
    "0".toList rfl (by decide) (by decide) (by decide) (by decide) (by decide)

end search

theorem mapKeys_mapSet {κ β : Type} [DecidableEq κ] (m : List (κ × List β)) (k : κ) (v : List β) :
    mapKeys (mapSet m k v) = if k ∈ mapKeys m then mapKeys m else mapKeys m ++ [k] := by
  induction m with
  | nil => simp [mapSet, mapKeys]
  | cons e rest ih =>
    obtain ⟨k', v'⟩ := e
    unfold mapKeys at ih ⊢
    by_cases h : k' = k
    · subst h
      simp [mapSet]
    · have h2 : ¬ k = k' := fun e => h e.symm
      simp only [mapSet, h, if_false, List.map_cons, ih, List.mem_cons, h2, false_or]
      split <;> simp

theorem mapKeys_mapSet_nodup {κ β : Type} [DecidableEq κ] (m : List (κ × List β)) (k : κ)
    (v : List β) (h : (mapKeys m).Nodup) : (mapKeys (mapSet m k v)).Nodup := by
  rw [mapKeys_mapSet]
  split
  · exact h
  · next hk =>
    rw [List.nodup_append]
    refine ⟨h, List.nodup_singleton k, ?_⟩
    intro a ha hb
    rw [List.mem_singleton] at hb
    exact hk (hb ▸ ha)

theorem mem_mapKeys_mapSet {κ β : Type} [DecidableEq κ] (m : List (κ × List β)) (k k2 : κ)
    (v : List β) : k2 ∈ mapKeys (mapSet m k v) ↔ k2 ∈ mapKeys m ∨ k2 = k := by
  rw [mapKeys_mapSet]
  split
  · next hk =>
    constructor
    · exact Or.inl
    · rintro (h | rfl)
      · exact h
      · exact hk
  · simp

namespace merge

variable {R σ : Type}

theorem keyOf_ok (GetMeta : R → Except Error ResourceMeta) (d : R) (meta : ResourceMeta)
    (h : GetMeta d = .ok meta) : keyOf GetMeta d = some (mergeKey.ofMeta meta) := by
  simp [keyOf, h]

theorem keyOf_error (GetMeta : R → Except Error ResourceMeta) (d : R) (e : Error)
    (h : GetMeta d = .error e) : keyOf GetMeta d = none := by
  simp [keyOf, h]

/-- The indexing loop fails exactly on the first document without meta. -/
theorem indexLoop_error (GetMeta : R → Except Error ResourceMeta) (input : List R) :
    ∀ index, (∃ d ∈ input, keyOf GetMeta d = none) →
      ∃ e, indexLoop GetMeta input index = .error e := by
  induction input with
  | nil => intro _ h; simp at h
  | cons r rest ih =>
    intro index h
    cases hg : GetMeta r with
    | error e => exact ⟨e, by simp [indexLoop, hg]⟩
    | ok meta =>
      simp only [indexLoop, hg]
      apply ih
      obtain ⟨d, hd, hk⟩ := h
      rcases List.mem_cons.1 hd with rfl | hd
      · rw [keyOf_ok GetMeta d meta hg] at hk; cases hk
      · exact ⟨d, hd, hk⟩

/-- The index the loop builds when every document has meta: per key the
documents with that key in input order, one entry per key met. -/
theorem indexLoop_ok (GetMeta : R → Except Error ResourceMeta) (input : List R) :
    ∀ index, (∀ d ∈ input, keyOf GetMeta d ≠ none) →
      ∃ index1, indexLoop GetMeta input index = .ok index1 ∧
        (∀ k, mapGet index1 k = mapGet index k ++ group GetMeta input k) ∧
        ((mapKeys index).Nodup → (mapKeys index1).Nodup) ∧
        (∀ k, k ∈ mapKeys index1 ↔ k ∈ mapKeys index ∨ ∃ d ∈ input, keyOf GetMeta d = some k) := by
  induction input with
  | nil =>
    intro index _
    exact ⟨index, rfl, by simp [group], id, by simp⟩
  | cons r rest ih =>
    intro index h
    cases hg : GetMeta r with
    | error e => exact absurd (keyOf_error GetMeta r e hg) (h r (List.mem_cons_self _ _))
    | ok meta =>
      have hk := keyOf_ok GetMeta r meta hg
      obtain ⟨index1, hrun, hget, hnd, hkeys⟩ :=
        ih (mapSet index (mergeKey.ofMeta meta) (mapGet index (mergeKey.ofMeta meta) ++ [r]))
          (fun d hd => h d (List.mem_cons_of_mem _ hd))
      refine ⟨index1, by simp only [indexLoop, hg, hrun], ?_, ?_, ?_⟩
      · intro k
        rw [hget k]
        by_cases hkk : k = mergeKey.ofMeta meta
        · subst hkk
          simp [mapGet_mapSet_same, group, List.filter_cons, hk]
        · have hkk2 : ¬ mergeKey.ofMeta meta = k := fun e => hkk e.symm
          simp [mapGet_mapSet_other _ _ _ _ hkk, group, List.filter_cons, hk, hkk2]
      · exact fun hn => hnd (mapKeys_mapSet_nodup _ _ _ hn)
      · intro k
        rw [hkeys k, mem_mapKeys_mapSet]
        constructor
        · rintro ((h1 | h1) | ⟨d, hd, hdk⟩)
          · exact Or.inl h1
          · exact Or.inr ⟨r, List.mem_cons_self _ _, by rw [hk, h1]⟩
          · exact Or.inr ⟨d, List.mem_cons_of_mem _ hd, hdk⟩
        · rintro (h1 | ⟨d, hd, hdk⟩)
          · exact Or.inl (Or.inl h1)
          · rcases List.mem_cons.1 hd with rfl | hd
            · rw [hk] at hdk
              exact Or.inl (Or.inr (Option.some.inj hdk).symm)
            · exact Or.inr ⟨d, hd, hdk⟩

end merge

namespace merge

variable {R σ : Type}

/-- With a `Merge` whose result is the function `M` of its arguments, the inner
loop started on an accumulator computes the left fold. -/
theorem mergeResources_some (Merge : R → R → σ → Except Error R × σ)
    (M : R → R → Except Error R) (hM : ∀ p m s, (Merge p m s).1 = M p m) (rs : List R) :
    ∀ (acc : R) (s : σ), (mergeResources Merge rs (some acc) s).1 =
      match rs.foldlM (fun a p => M p a) acc with
      | .error err => .error err
      | .ok a => .ok (some a) := by
  induction rs with
  | nil => intro acc s; rfl
  | cons p rest ih =>
    intro acc s
    have h := hM p acc s
    rcases hms : Merge p acc s with ⟨r, s1⟩
    rw [hms] at h
    simp only at h
    cases r with
    | error e =>
      simp only [mergeResources, hms, List.foldlM_cons, ← h]
      rfl
    | ok m =>
      simp only [mergeResources, hms, List.foldlM_cons, ← h, ih m s1]
      rfl

theorem mergeResources_none (Merge : R → R → σ → Except Error R × σ)
    (M : R → R → Except Error R) (hM : ∀ p m s, (Merge p m s).1 = M p m) (rs : List R) (s : σ) :
    (mergeResources Merge rs none s).1 = foldGroup M rs := by
  cases rs with
  | nil => rfl
  | cons d ds => simp only [mergeResources, mergeResources_some Merge M hM ds d s, foldGroup]

/-- The inner loop never ends on the nil pointer once it has seen a resource. -/
theorem mergeResources_ne_none (Merge : R → R → σ → Except Error R × σ) (rs : List R) :
    ∀ (acc : R) (s : σ) (merged : Option R),
      (mergeResources Merge rs (some acc) s).1 = .ok merged → merged ≠ none := by
  induction rs with
  | nil =>
    intro acc s merged h
    simp only [mergeResources] at h
    cases h
    simp
  | cons p rest ih =>
    intro acc s merged h
    rcases hms : Merge p acc s with ⟨r, s1⟩
    cases r with
    | error e => simp [mergeResources, hms] at h
    | ok m =>
      simp only [mergeResources, hms] at h
      exact ih m s1 merged h

/-- What the outer loop returns: on success one result per key visited, in the
order visited, each the inner loop's result for that key from some state;
on failure the error of the inner loop for one of the keys. -/
theorem mergeLoop_result (Merge : R → R → σ → Except Error R × σ)
    (index : List (mergeKey × List R)) (ks : List mergeKey) :
    ∀ (out : List (Option R)) (s : σ),
      (∀ output, (mergeLoop Merge index ks out s).1 = .ok output →
        ∃ ms, output = out ++ ms ∧
          List.Forall₂ (fun k m => ∃ s1, (mergeResources Merge (mapGet index k) none s1).1 = .ok m)
            ks ms) ∧
      (∀ err, (mergeLoop Merge index ks out s).1 = .error err →
        ∃ k ∈ ks, ∃ s1, (mergeResources Merge (mapGet index k) none s1).1 = .error err) := by
  induction ks with
  | nil =>
    intro out s
    refine ⟨fun output h => ⟨[], ?_, List.Forall₂.nil⟩, fun err h => ?_⟩
    · simp only [mergeLoop] at h
      cases h
      simp
    · simp [mergeLoop] at h
  | cons k rest ih =>
    intro out s
    rcases hmr : mergeResources Merge (mapGet index k) none s with ⟨r, s1⟩
    cases r with
    | error e =>
      refine ⟨fun output h => ?_, fun err h => ?_⟩
      · simp [mergeLoop, hmr] at h
      · simp only [mergeLoop, hmr] at h
        cases h
        exact ⟨k, List.mem_cons_self _ _, s, by rw [hmr]⟩
    | ok merged =>
      obtain ⟨ih1, ih2⟩ := ih (out ++ [merged]) s1
      refine ⟨fun output h => ?_, fun err h => ?_⟩
      · simp only [mergeLoop, hmr] at h
        obtain ⟨ms, hout, hall⟩ := ih1 output h
        refine ⟨merged :: ms, by simp [hout], List.Forall₂.cons ⟨s, by rw [hmr]⟩ hall⟩
      · simp only [mergeLoop, hmr] at h
        obtain ⟨k2, hk2, hres⟩ := ih2 err h
        exact ⟨k2, List.mem_cons_of_mem _ hk2, hres⟩

/-- `Filter` when some document has no meta: the error is returned from the
indexing loop, with no output and the state untouched. -/
theorem Filter_of_meta_error (GetMeta : R → Except Error ResourceMeta)
    (Merge : R → R → σ → Except Error R × σ) (rangeOrder : List mergeKey → List mergeKey)
    (input : List R) (s : σ) (h : ∃ d ∈ input, keyOf GetMeta d = none) :
    ∃ e, indexLoop GetMeta input [] = .error e ∧
      Filter GetMeta Merge rangeOrder input s = { output := [], err := some e, state := s } := by
  obtain ⟨e, he⟩ := indexLoop_error GetMeta input [] h
  exact ⟨e, he, by simp only [Filter, he]⟩

/-- `Filter` when every document has meta: the index holds the groups and the
merge loop runs over a permutation of the distinct keys. -/
theorem Filter_of_meta_ok (GetMeta : R → Except Error ResourceMeta)
    (Merge : R → R → σ → Except Error R × σ) (rangeOrder : List mergeKey → List mergeKey)
    (hrange : ∀ ks, (rangeOrder ks).Perm ks)
    (input : List R) (s : σ) (h : ∀ d ∈ input, keyOf GetMeta d ≠ none) :
    ∃ index keys,
      (∀ k, mapGet index k = group GetMeta input k) ∧
      keys.Nodup ∧ (∀ k, k ∈ keys ↔ ∃ d ∈ input, keyOf GetMeta d = some k) ∧
      Filter GetMeta Merge rangeOrder input s =
        match mergeLoop Merge index keys [] s with
        | (.error err, s1) => { output := [], err := some err, state := s1 }
        | (.ok output, s1) => { output := output, err := none, state := s1 } := by
  obtain ⟨index, hrun, hget, hnd, hkeys⟩ := indexLoop_ok GetMeta input [] h
  refine ⟨index, rangeOrder (mapKeys index), ?_, ?_, ?_, by simp only [Filter, hrun]⟩
  · intro k; rw [hget k]; simp [mapGet]
  · exact (hrange _).nodup_iff.2 (hnd (by simp [mapKeys]))
  · intro k
    rw [(hrange _).mem_iff, hkeys k]
    simp [mapKeys]

theorem group_ne_nil (GetMeta : R → Except Error ResourceMeta) (input : List R) (k : mergeKey)
    (h : ∃ d ∈ input, keyOf GetMeta d = some k) : group GetMeta input k ≠ [] := by
  obtain ⟨d, hd, hk⟩ := h
  intro hnil
  have : d ∈ group GetMeta input k := by
    simp only [group, List.mem_filter, decide_eq_true_eq]
    exact ⟨hd, hk⟩
  rw [hnil] at this
  cases this

end merge

theorem forall₂_mem_left {α β : Type} {P : α → β → Prop} {l1 : List α} {l2 : List β}
    (h : List.Forall₂ P l1 l2) : List.Forall₂ (fun a b => a ∈ l1 ∧ P a b) l1 l2 := by
  induction h with
  | nil => exact List.Forall₂.nil
  | cons hab _ ih =>
    refine List.Forall₂.cons ⟨List.mem_cons_self _ _, hab⟩ ?_
    exact ih.imp (fun a b hb => ⟨List.mem_cons_of_mem _ hb.1, hb.2⟩)

namespace merge

variable {R σ : Type}

theorem keyOf_ne_none_of_ok (GetMeta : R → Except Error ResourceMeta) (input : List R)
    (hmeta : ∀ d ∈ input, ∃ meta, GetMeta d = .ok meta) :
    ∀ d ∈ input, keyOf GetMeta d ≠ none := by
  intro d hd
  obtain ⟨meta, hm⟩ := hmeta d hd
  rw [keyOf_ok GetMeta d meta hm]
  simp

theorem keyOf_eq_none_iff (GetMeta : R → Except Error ResourceMeta) (d : R) :
    keyOf GetMeta d = none ↔ ∃ e, GetMeta d = .error e := by
  unfold keyOf
  cases GetMeta d with
  | error e => simp
  | ok m => simp

theorem foldGroup_cons (M : R → R → Except Error R) (d : R) (ds : List R) :
    (∀ m, foldGroup M (d :: ds) = .ok m →
      ∃ acc, ds.foldlM (fun acc p => M p acc) d = .ok acc ∧ m = some acc) ∧
    (∀ e, foldGroup M (d :: ds) = .error e → ds.foldlM (fun acc p => M p acc) d = .error e) := by
  refine ⟨fun m h => ?_, fun e h => ?_⟩
  · simp only [foldGroup] at h
    split at h
    · cases h
    · next acc hacc =>
      cases h
      exact ⟨acc, hacc, rfl⟩
  · simp only [foldGroup] at h
    split at h
    · next e2 hacc =>
      cases h
      exact hacc
    · cases h

/-- C2: when identity extraction succeeds on every input document and every
merge step succeeds, `Filter` returns no error and its output lines up with a
duplicate-free list of the identity keys of the input: the document returned
for a key is the left fold of the input documents having that key, in input
order, seeded with the first of them, each later document `p` replacing the
accumulator `acc` by `Merge(p, acc)`. -/
theorem Filter_groups_fold (GetMeta : R → Except Error ResourceMeta)
    (Merge : R → R → σ → Except Error R × σ) (M : R → R → Except Error R)
    (rangeOrder : List mergeKey → List mergeKey) (input : List R) (s : σ)
    (hrange : ∀ ks, (rangeOrder ks).Perm ks)
    (hM : ∀ p m s, (Merge p m s).1 = M p m)
    (hmeta : ∀ d ∈ input, ∃ meta, GetMeta d = .ok meta)
    (hmerge : ∀ k d ds, group GetMeta input k = d :: ds →
      ∃ acc, ds.foldlM (fun acc p => M p acc) d = .ok acc) :
    (Filter GetMeta Merge rangeOrder input s).err = none ∧
    ∃ keys : List mergeKey, keys.Nodup ∧
      (∀ k, k ∈ keys ↔ ∃ d ∈ input, keyOf GetMeta d = some k) ∧
      List.Forall₂
        (fun k o => ∃ d ds acc, group GetMeta input k = d :: ds ∧
          ds.foldlM (fun acc p => M p acc) d = .ok acc ∧ o = some acc)
        keys (Filter GetMeta Merge rangeOrder input s).output := by
  obtain ⟨index, keys, hget, hnd, hkeys, hrun⟩ :=
    Filter_of_meta_ok GetMeta Merge rangeOrder hrange input s
      (keyOf_ne_none_of_ok GetMeta input hmeta)
  obtain ⟨hok, herr⟩ := mergeLoop_result Merge index keys [] s
  rw [hrun]
  rcases hml : mergeLoop Merge index keys [] s with ⟨r, s1⟩
  rw [hml] at hok herr
  cases r with
  | error e =>
    exfalso
    obtain ⟨k, hk, s2, hres⟩ := herr e rfl
    rw [mergeResources_none Merge M hM, hget k] at hres
    obtain ⟨d, ds, hg⟩ := List.exists_cons_of_ne_nil (group_ne_nil GetMeta input k ((hkeys k).1 hk))
    obtain ⟨acc, hacc⟩ := hmerge k d ds hg
    rw [hg] at hres
    have := (foldGroup_cons M d ds).2 e hres
    rw [hacc] at this
    cases this
  | ok output =>
    obtain ⟨ms, hout, hall⟩ := hok output rfl
    simp only [List.nil_append] at hout
    subst hout
    refine ⟨rfl, keys, hnd, hkeys, ?_⟩
    refine (forall₂_mem_left hall).imp ?_
    rintro k m ⟨hk, s2, hres⟩
    rw [mergeResources_none Merge M hM, hget k] at hres
    obtain ⟨d, ds, hg⟩ := List.exists_cons_of_ne_nil (group_ne_nil GetMeta input k ((hkeys k).1 hk))
    rw [hg] at hres
    obtain ⟨acc, hacc, hm⟩ := (foldGroup_cons M d ds).1 m hres
    exact ⟨d, ds, acc, hg, hacc, hm⟩

end merge

namespace merge

variable {R σ : Type}

theorem exM_fold_ok (ds : List ExDoc) :
    ∀ d : ExDoc, ∃ acc, ds.foldlM (fun acc p => exM p acc) d = .ok acc := by
  induction ds with
  | nil => exact fun d => ⟨d, rfl⟩
  | cons p rest ih =>
    intro d
    obtain ⟨acc, h⟩ := ih { d with fields := d.fields ++ p.fields }
    exact ⟨acc, by rw [List.foldlM_cons]; exact h⟩

theorem Filter_groups_fold_witness :
    (Filter exGetMeta exMerge List.reverse exInput 0).err = none ∧
    ∃ keys : List mergeKey, keys.Nodup ∧
      (∀ k, k ∈ keys ↔ ∃ d ∈ exInput, keyOf exGetMeta d = some k) ∧
      List.Forall₂
        (fun k o => ∃ d ds acc, group exGetMeta exInput k = d :: ds ∧
          ds.foldlM (fun acc p => exM p acc) d = .ok acc ∧ o = some acc)
        keys (Filter exGetMeta exMerge List.reverse exInput 0).output :=
  Filter_groups_fold exGetMeta exMerge exM List.reverse exInput 0
    (fun ks => List.reverse_perm ks) (fun _ _ _ => rfl) (fun d _ => ⟨d.meta, rfl⟩)
    (fun _ d ds _ => exM_fold_ok ds d)

/-- C7: when `Filter` succeeds, identity extraction succeeded on every input,
the number of output documents is the number of distinct identity keys of the
input, the output lines up with a duplicate-free list of those keys (each
output being the merge of the documents of its key), keys that differ in any
of the four fields sit at different output positions, and a non-empty input
whose documents all share one key gives exactly one output. -/
theorem Filter_one_output_per_key (GetMeta : R → Except Error ResourceMeta)
    (Merge : R → R → σ → Except Error R × σ)
    (rangeOrder : List mergeKey → List mergeKey) (input : List R) (s : σ)
    (hrange : ∀ ks, (rangeOrder ks).Perm ks)
    (hok : (Filter GetMeta Merge rangeOrder input s).err = none) :
    (∀ d ∈ input, keyOf GetMeta d ≠ none) ∧
    (Filter GetMeta Merge rangeOrder input s).output.length =
      ((input.filterMap (keyOf GetMeta)).dedup).length ∧
    (∃ keys : List mergeKey, keys.Nodup ∧
      (∀ k, k ∈ keys ↔ ∃ d ∈ input, keyOf GetMeta d = some k) ∧
      List.Forall₂
        (fun k o => ∃ s1 acc,
          (mergeResources Merge (group GetMeta input k) none s1).1 = .ok (some acc) ∧ o = some acc)
        keys (Filter GetMeta Merge rangeOrder input s).output ∧
      (∀ k1 ∈ keys, ∀ k2 ∈ keys,
        (k1.apiVersion ≠ k2.apiVersion ∨ k1.kind ≠ k2.kind ∨ k1.namespace ≠ k2.namespace ∨
          k1.name ≠ k2.name) → keys.indexOf k1 ≠ keys.indexOf k2)) ∧
    (input ≠ [] → (∀ d1 ∈ input, ∀ d2 ∈ input, keyOf GetMeta d1 = keyOf GetMeta d2) →
      (Filter GetMeta Merge rangeOrder input s).output.length = 1) := by
  have hmeta : ∀ d ∈ input, keyOf GetMeta d ≠ none := by
    intro d hd hnone
    obtain ⟨e, _, hrun⟩ := Filter_of_meta_error GetMeta Merge rangeOrder input s ⟨d, hd, hnone⟩
    rw [hrun] at hok
    cases hok
  obtain ⟨index, keys, hget, hnd, hkeys, hrun⟩ :=
    Filter_of_meta_ok GetMeta Merge rangeOrder hrange input s hmeta
  obtain ⟨hres, _⟩ := mergeLoop_result Merge index keys [] s
  rw [hrun] at hok ⊢
  rcases hml : mergeLoop Merge index keys [] s with ⟨r, s1⟩
  rw [hml] at hres hok
  cases r with
  | error e => cases hok
  | ok output =>
    obtain ⟨ms, hout, hall⟩ := hres output rfl
    simp only [List.nil_append] at hout
    subst hout
    have hlen : output.length = keys.length := hall.length_eq.symm
    have hperm : keys.Perm ((input.filterMap (keyOf GetMeta)).dedup) := by
      rw [List.perm_ext_iff_of_nodup hnd (List.nodup_dedup _)]
      intro k
      rw [hkeys k, List.mem_dedup, List.mem_filterMap]
    refine ⟨hmeta, ?_, ⟨keys, hnd, hkeys, ?_, ?_⟩, ?_⟩
    · show output.length = _
      rw [hlen, hperm.length_eq]
    · refine (forall₂_mem_left hall).imp ?_
      rintro k m ⟨hk, s2, hm⟩
      rw [hget k] at hm
      obtain ⟨d, ds, hg⟩ :=
        List.exists_cons_of_ne_nil (group_ne_nil GetMeta input k ((hkeys k).1 hk))
      have hne : m ≠ none := by
        rw [hg] at hm
        simp only [mergeResources] at hm
        exact mergeResources_ne_none Merge ds d s2 m hm
      obtain ⟨acc, rfl⟩ := Option.ne_none_iff_exists'.1 hne
      exact ⟨s2, acc, hm, rfl⟩
    · intro k1 hk1 k2 hk2 hdiff hidx
      have heq : k1 = k2 := (List.indexOf_inj hk1 hk2).1 hidx
      subst heq
      rcases hdiff with h | h | h | h <;> exact h rfl
    · intro hne hsame
      show output.length = 1
      obtain ⟨d0, ds0, hd0⟩ := List.exists_cons_of_ne_nil hne
      have hd0mem : d0 ∈ input := by rw [hd0]; exact List.mem_cons_self _ _
      obtain ⟨k0, hk0⟩ := Option.ne_none_iff_exists'.1 (hmeta d0 hd0mem)
      have hone : keys.Perm [k0] := by
        rw [List.perm_ext_iff_of_nodup hnd (List.nodup_singleton k0)]
        intro k
        rw [hkeys k, List.mem_singleton]
        constructor
        · rintro ⟨d, hd, hk⟩
          rw [hsame d hd d0 hd0mem, hk0] at hk
          exact (Option.some.inj hk).symm
        · rintro rfl
          exact ⟨d0, hd0mem, hk0⟩
      rw [hlen, hone.length_eq]
      rfl

theorem Filter_one_output_per_key_witness :
    (Filter exGetMeta exMerge List.reverse exSameKey 0).output.length = 1 :=
  (Filter_one_output_per_key exGetMeta exMerge List.reverse exSameKey 0
    (fun ks => List.reverse_perm ks) (by decide)).2.2.2 (List.cons_ne_nil _ _) (by decide)

end merge

theorem forall₂_exists_right {α β : Type} {P : α → β → Prop} {l1 : List α} {l2 : List β}
    (h : List.Forall₂ P l1 l2) : ∀ a ∈ l1, ∃ b, P a b := by
  induction h with
  | nil => intro a ha; cases ha
  | cons hab _ ih =>
    intro a ha
    rcases List.mem_cons.1 ha with rfl | ha
    · exact ⟨_, hab⟩
    · exact ih a ha

namespace merge

variable {R σ : Type}

theorem Filter_output_of_err (GetMeta : R → Except Error ResourceMeta)
    (Merge : R → R → σ → Except Error R × σ) (rangeOrder : List mergeKey → List mergeKey)
    (input : List R) (s : σ) (h : (Filter GetMeta Merge rangeOrder input s).err ≠ none) :
    (Filter GetMeta Merge rangeOrder input s).output = [] := by
  unfold Filter at h ⊢
  split
  · rfl
  · next index hidx =>
    rw [hidx] at h
    simp only at h
    split
    · rfl
    · next output s1 hml =>
      rw [hml] at h
      exact absurd rfl h

/-- C8: `Filter` returns an error exactly when identity extraction fails for
some input document or the fold of some key's documents fails at a merge step;
with an error it returns no documents; and on an extraction failure the error
is the one of the indexing loop, the state that `Merge` acts on is untouched
and the result does not depend on `Merge` or on the iteration order. -/
theorem Filter_error_iff (GetMeta : R → Except Error ResourceMeta)
    (Merge : R → R → σ → Except Error R × σ) (M : R → R → Except Error R)
    (rangeOrder : List mergeKey → List mergeKey) (input : List R) (s : σ)
    (hrange : ∀ ks, (rangeOrder ks).Perm ks)
    (hM : ∀ p m s, (Merge p m s).1 = M p m) :
    ((Filter GetMeta Merge rangeOrder input s).err ≠ none ↔
      (∃ d ∈ input, ∃ e, GetMeta d = .error e) ∨
      (∃ k d ds e, group GetMeta input k = d :: ds ∧
        ds.foldlM (fun acc p => M p acc) d = .error e)) ∧
    ((Filter GetMeta Merge rangeOrder input s).err ≠ none →
      (Filter GetMeta Merge rangeOrder input s).output = []) ∧
    ((∃ d ∈ input, ∃ e, GetMeta d = .error e) →
      (Filter GetMeta Merge rangeOrder input s).state = s ∧
      (Filter GetMeta Merge rangeOrder input s).output = [] ∧
      (∃ e, indexLoop GetMeta input [] = .error e ∧
        (Filter GetMeta Merge rangeOrder input s).err = some e) ∧
      ∀ (Merge2 : R → R → σ → Except Error R × σ) (rangeOrder2 : List mergeKey → List mergeKey),
        Filter GetMeta Merge2 rangeOrder2 input s = Filter GetMeta Merge rangeOrder input s) := by
  have hextract : (∃ d ∈ input, ∃ e, GetMeta d = .error e) →
      ∃ d ∈ input, keyOf GetMeta d = none := by
    rintro ⟨d, hd, he⟩
    exact ⟨d, hd, (keyOf_eq_none_iff GetMeta d).2 he⟩
  refine ⟨⟨fun herr => ?_, fun h => ?_⟩, Filter_output_of_err GetMeta Merge rangeOrder input s,
    fun h => ?_⟩
  · by_cases hnone : ∃ d ∈ input, keyOf GetMeta d = none
    · obtain ⟨d, hd, hk⟩ := hnone
      exact Or.inl ⟨d, hd, (keyOf_eq_none_iff GetMeta d).1 hk⟩
    · right
      have hmeta : ∀ d ∈ input, keyOf GetMeta d ≠ none := fun d hd hk => hnone ⟨d, hd, hk⟩
      obtain ⟨index, keys, hget, _, hkeys, hrun⟩ :=
        Filter_of_meta_ok GetMeta Merge rangeOrder hrange input s hmeta
      obtain ⟨_, hres⟩ := mergeLoop_result Merge index keys [] s
      rw [hrun] at herr
      rcases hml : mergeLoop Merge index keys [] s with ⟨r, s1⟩
      rw [hml] at hres herr
      cases r with
      | ok output => exact absurd rfl herr
      | error e =>
        obtain ⟨k, hk, s2, hfold⟩ := hres e rfl
        rw [mergeResources_none Merge M hM, hget k] at hfold
        obtain ⟨d, ds, hg⟩ :=
          List.exists_cons_of_ne_nil (group_ne_nil GetMeta input k ((hkeys k).1 hk))
        rw [hg] at hfold
        exact ⟨k, d, ds, e, hg, (foldGroup_cons M d ds).2 e hfold⟩
  · by_cases hnone : ∃ d ∈ input, keyOf GetMeta d = none
    · obtain ⟨e, _, hrun⟩ := Filter_of_meta_error GetMeta Merge rangeOrder input s hnone
      rw [hrun]
      simp
    · rcases h with h | ⟨k, d, ds, e, hg, hfold⟩
      · exact absurd (hextract h) hnone
      · have hmeta : ∀ d ∈ input, keyOf GetMeta d ≠ none := fun d hd hk => hnone ⟨d, hd, hk⟩
        obtain ⟨index, keys, hget, _, hkeys, hrun⟩ :=
          Filter_of_meta_ok GetMeta Merge rangeOrder hrange input s hmeta
        obtain ⟨hres, _⟩ := mergeLoop_result Merge index keys [] s
        rw [hrun]
        rcases hml : mergeLoop Merge index keys [] s with ⟨r, s1⟩
        rw [hml] at hres
        cases r with
        | error e2 => simp
        | ok output =>
          exfalso
          obtain ⟨ms, _, hall⟩ := hres output rfl
          have hdmem : d ∈ group GetMeta input k := by rw [hg]; exact List.mem_cons_self _ _
          simp only [group, List.mem_filter, decide_eq_true_eq] at hdmem
          have hk : k ∈ keys := (hkeys k).2 ⟨d, hdmem.1, hdmem.2⟩
          obtain ⟨m, s2, hm⟩ := forall₂_exists_right hall k hk
          rw [mergeResources_none Merge M hM, hget k, hg] at hm
          obtain ⟨acc, hacc, _⟩ := (foldGroup_cons M d ds).1 m hm
          rw [hfold] at hacc
          cases hacc
  · obtain ⟨e, hidx, hrun⟩ := Filter_of_meta_error GetMeta Merge rangeOrder input s (hextract h)
    refine ⟨by rw [hrun], by rw [hrun], ⟨e, hidx, by rw [hrun]⟩, fun Merge2 rangeOrder2 => ?_⟩
    obtain ⟨e2, hidx2, hrun2⟩ :=
      Filter_of_meta_error GetMeta Merge2 rangeOrder2 input s (hextract h)
    rw [hidx] at hidx2
    cases hidx2
    rw [hrun, hrun2]

theorem Filter_error_iff_witness :
    (Filter exGetMetaFailing exMerge id exInputFailing 0).state = 0 ∧
      (Filter exGetMetaFailing exMerge id exInputFailing 0).output = [] ∧
      (∃ e, indexLoop exGetMetaFailing exInputFailing [] = .error e ∧
        (Filter exGetMetaFailing exMerge id exInputFailing 0).err = some e) ∧
      ∀ (Merge2 : ExDoc → ExDoc → Nat → Except Error ExDoc × Nat)
        (rangeOrder2 : List mergeKey → List mergeKey),
        Filter exGetMetaFailing Merge2 rangeOrder2 exInputFailing 0 =
          Filter exGetMetaFailing exMerge id exInputFailing 0 :=
  (Filter_error_iff exGetMetaFailing exMerge exM id exInputFailing 0
    (fun ks => List.Perm.refl ks) (fun _ _ _ => rfl)).2.2
    ⟨⟨exMeta "b".toList, []⟩, by simp [exInputFailing], "missing metadata", rfl⟩

end merge

namespace search

/-- C12: a non-empty `ByPath` that is not absolute keeps `Filter` off the fast
path, whatever the other settings, and makes `visitScalar` return an error on
every scalar leaf with the scalar, `Count` and `Match` (indeed the whole
receiver) exactly as they were. -/
theorem visitScalar_invalid_path (sr : SearchReplace) (hne : sr.ByPath ≠ [])
    (hnabs : isAbsPath sr.ByPath = false) :
    sr.shouldPutLiteralByPath = false ∧
    (∀ (GetFileAnnotations : YNode → Except Error (Str × Str))
        (accept : SearchReplace → YNode → Outcome (SearchReplace × YNode))
        (object : YNode) (filePath index : Str),
      GetFileAnnotations object = .ok (filePath, index) →
        sr.Filter GetFileAnnotations accept object = accept { sr with filePath := filePath } object) ∧
    (∀ (object : ScalarNode) (path : Str),
      ∃ err, sr.visitScalar object path = .returned (sr, object) (some err) ∧
        counted sr object path = false) := by
  have hshould : ∀ fp, ({ sr with filePath := fp } : SearchReplace).shouldPutLiteralByPath = false := by
    intro fp
    simp [SearchReplace.shouldPutLiteralByPath, hnabs]
  refine ⟨by simp [SearchReplace.shouldPutLiteralByPath, hnabs], ?_, ?_⟩
  · intro GetFileAnnotations accept object filePath index hfile
    simp only [SearchReplace.Filter, hfile, hshould filePath]
    rfl
  · intro object path
    have hpm : sr.pathMatch path =
        (false, some "invalid input path, must follow pattern e.g. foo.bar.baz") := by
      simp [SearchReplace.pathMatch, hne, hnabs]
    refine ⟨"invalid input path, must follow pattern e.g. foo.bar.baz", ?_, ?_⟩
    · unfold SearchReplace.visitScalar
      rw [hpm]
    · unfold counted SearchReplace.visitScalar
      rw [hpm]

theorem visitScalar_invalid_path_witness :
    ∃ err, exWildcardPath.visitScalar ⟨"x".toList⟩ ".a.b".toList =
        .returned (exWildcardPath, ⟨"x".toList⟩) (some err) ∧
      counted exWildcardPath ⟨"x".toList⟩ ".a.b".toList = false :=
  (visitScalar_invalid_path exWildcardPath (by decide) (by decide)).2.2 ⟨"x".toList⟩ ".a.b".toList

/-- `putLiteral` never panics. -/
theorem putLiteral_returns (sr : SearchReplace) (object : YNode) :
    ∃ st err, sr.putLiteral object = .returned st err := by
  have hne := stringsSplit_dot_ne_nil sr.ByPath
  have hlast := List.getLast?_eq_getLast_of_ne_nil hne
  unfold SearchReplace.putLiteral
  simp only [hlast]
  split
  · exact ⟨_, _, rfl⟩
  · split
    · exact ⟨_, _, rfl⟩
    · exact ⟨_, _, rfl⟩

/-- C19: splitting on the delimiter always yields at least one segment, so the
zero-segment branch of `isAbsPath` is never taken, `putLiteral` never indexes
out of bounds (it does not panic and its path is the parent path followed by
a last segment), and when `shouldPutLiteralByPath` holds that last segment,
used as the field name, is non-empty. -/
theorem stringsSplit_at_least_one (path : Str) :
    1 ≤ (stringsSplit path PathDelimiter).length ∧
    isAbsPath path = isAbsPathLoop (stringsSplit path PathDelimiter) ∧
    (∃ last, (stringsSplit path PathDelimiter).getLast? = some last ∧
      stringsSplit path PathDelimiter = (stringsSplit path PathDelimiter).dropLast ++ [last] ∧
      (stringsSplit path PathDelimiter).dropLast.length + 1 =
        (stringsSplit path PathDelimiter).length) ∧
    (∀ (sr : SearchReplace) (object : YNode), sr.ByPath = path →
      (∃ st err, sr.putLiteral object = .returned st err) ∧
      (sr.shouldPutLiteralByPath = true →
        ∀ last, (stringsSplit path PathDelimiter).getLast? = some last → last ≠ [])) := by
  have hne := stringsSplit_dot_ne_nil path
  have hlen : (stringsSplit path PathDelimiter).length ≠ 0 := fun h => hne (List.length_eq_zero.1 h)
  refine ⟨Nat.one_le_iff_ne_zero.2 hlen, by simp [isAbsPath, hlen], ?_, ?_⟩
  · refine ⟨_, List.getLast?_eq_getLast_of_ne_nil hne, (List.dropLast_append_getLast hne).symm, ?_⟩
    rw [List.length_dropLast]
    omega
  · rintro sr object rfl
    refine ⟨putLiteral_returns sr object, fun hshould last hlast => ?_⟩
    have habs := ((shouldPutLiteralByPath_iff sr).1 hshould).1
    have hmem : last ∈ stringsSplit sr.ByPath PathDelimiter := List.mem_of_mem_getLast? hlast
    exact ((isAbsPath_iff _).1 habs last hmem).1

theorem stringsSplit_at_least_one_witness :
    (∃ st err, exPutLiteral.putLiteral exDocument = .returned st err) ∧
      (exPutLiteral.shouldPutLiteralByPath = true →
        ∀ last, (stringsSplit "a.b.c".toList PathDelimiter).getLast? = some last → last ≠ []) :=
  (stringsSplit_at_least_one "a.b.c".toList).2.2.2 exPutLiteral exDocument rfl

end search

namespace search

/-- The four ways a visit can end. -/
theorem visitScalar_shape (sr : SearchReplace) (object : ScalarNode) (path : Str) :
    (∃ err, sr.pathMatch path = (false, some err) ∧
      sr.visitScalar object path = .returned (sr, object) (some err)) ∨
    (∃ pm, sr.pathMatch path = (pm, none) ∧
      ((sr.visitScalar object path = .panicked ∧
          (if object.Value = sr.ByValue then some true else sr.regexMatch object.Value) = none) ∨
        sr.visitScalar object path = .returned (sr, object) none ∨
        sr.visitScalar object path = .returned (matchedState sr object path) none)) := by
  rcases pathMatch_shape sr path with ⟨e, hpm⟩ | ⟨pm, hpm⟩
  · left
    refine ⟨e, hpm, ?_⟩
    unfold SearchReplace.visitScalar
    rw [hpm]
  · right
    refine ⟨pm, hpm, ?_⟩
    cases hvm : (if object.Value = sr.ByValue then some true else sr.regexMatch object.Value) with
    | none => exact Or.inl ⟨(counted_of_panic sr object path pm hpm hvm).1, rfl⟩
    | some vm =>
      right
      rw [visitScalar_eval sr object path pm vm hpm hvm]
      split
      · exact Or.inr rfl
      · exact Or.inl rfl

theorem pathMatch_congr (sr sr1 : SearchReplace) (path : Str) (h : sr1.ByPath = sr.ByPath) :
    sr1.pathMatch path = sr.pathMatch path := by
  simp [SearchReplace.pathMatch, h]

/-- C18: when a visit of a scalar leaf returns without error, visiting the
same leaf again leaves the scalar with the value it had after the first visit
(whatever the second visit returns), and with a compiled regex the second visit
returns without error as well. -/
theorem visitScalar_idempotent (sr sr1 : SearchReplace) (object object1 : ScalarNode)
    (path : Str) (h1 : sr.visitScalar object path = .returned (sr1, object1) none) :
    (∀ sr2 object2 err, sr1.visitScalar object1 path = .returned (sr2, object2) err →
      object2.Value = object1.Value) ∧
    ((sr.ByValueRegex ≠ [] → sr.regex ≠ none) →
      ∃ sr2 object2, sr1.visitScalar object1 path = .returned (sr2, object2) none ∧
        object2.Value = object1.Value) := by
  have hfields : sr1.ByPath = sr.ByPath ∧ sr1.PutLiteral = sr.PutLiteral ∧
      sr1.ByValueRegex = sr.ByValueRegex ∧ sr1.regex = sr.regex ∧
      (object1.Value = object.Value ∨ (sr.PutLiteral ≠ [] ∧ object1.Value = sr.PutLiteral)) ∧
      ∃ pm, sr.pathMatch path = (pm, none) := by
    rcases visitScalar_shape sr object path with ⟨e, _, he⟩ | ⟨pm, hpm, ⟨hp, _⟩ | hu | hm⟩
    · rw [he] at h1; cases h1
    · rw [hp] at h1; cases h1
    · rw [hu] at h1
      cases h1
      exact ⟨rfl, rfl, rfl, rfl, Or.inl rfl, pm, hpm⟩
    · rw [hm] at h1
      cases h1
      refine ⟨rfl, rfl, rfl, rfl, ?_, pm, hpm⟩
      by_cases hl : sr.PutLiteral = []
      · left; simp [matchedState, hl]
      · right; exact ⟨hl, by simp [matchedState, hl]⟩
  obtain ⟨hbp, hpl, hbr, hre, hval, pm, hpm⟩ := hfields
  have hsame : ∀ sr2 object2 err, sr1.visitScalar object1 path = .returned (sr2, object2) err →
      object2.Value = object1.Value := by
    intro sr2 object2 err h2
    rcases visitScalar_shape sr1 object1 path with ⟨e, _, he⟩ | ⟨_, _, ⟨hp, _⟩ | hu | hm⟩
    · rw [he] at h2; cases h2; rfl
    · rw [hp] at h2; cases h2
    · rw [hu] at h2; cases h2; rfl
    · rw [hm] at h2
      cases h2
      rcases hval with hv | ⟨hl, hv⟩
      · by_cases hl : sr.PutLiteral = []
        · simp [matchedState, hpl, hl]
        · rcases visitScalar_shape sr object path with ⟨e, _, he⟩ | ⟨_, _, ⟨hp, _⟩ | hu | hm2⟩
          · rw [he] at h1; cases h1
          · rw [hp] at h1; cases h1
          · rw [hu] at h1
            cases h1
            rw [hu] at hm
            have hc := congrArg
              (fun o : Outcome (SearchReplace × ScalarNode) =>
                match o with
                | .returned st _ => st.1.Count
                | .panicked => 0) hm
            simp [matchedState] at hc
          · rw [hm2] at h1
            cases h1
            simp [matchedState, hl]
      · simp [matchedState, hpl, hl, hv]
  refine ⟨hsame, fun hwf => ?_⟩
  rcases visitScalar_shape sr1 object1 path with ⟨e, he, _⟩ | ⟨_, _, ⟨_, hp⟩ | hu | hm⟩
  · exfalso
    rw [pathMatch_congr sr sr1 path hbp, hpm] at he
    cases he
  · exfalso
    rcases valueMatch_cases sr1 object1.Value with ⟨_, _, hr, hn, _⟩ | ⟨hv, _⟩
    · rw [hbr] at hr
      rw [hre] at hn
      exact hwf hr hn
    · rw [hv] at hp
      cases hp
  · exact ⟨_, _, hu, hsame _ _ _ hu⟩
  · exact ⟨_, _, hm, hsame _ _ _ hm⟩

theorem visitScalar_idempotent_witness :
    ∃ sr2 object2,
      (matchedState exPathAndValue ⟨"x".toList⟩ ".a.b".toList).1.visitScalar
          (matchedState exPathAndValue ⟨"x".toList⟩ ".a.b".toList).2 ".a.b".toList =
        .returned (sr2, object2) none ∧
      object2.Value = (matchedState exPathAndValue ⟨"x".toList⟩ ".a.b".toList).2.Value :=
  (visitScalar_idempotent exPathAndValue _ ⟨"x".toList⟩ _ ".a.b".toList
    (visitScalar_of_counted exPathAndValue ⟨"x".toList⟩ ".a.b".toList (by decide))).2
    (fun h => absurd rfl h)

end search

theorem splitOn_dot_head_nil (s : Str) :
    (s.splitOn '.').head? = some [] ↔ s = [] ∨ s.head? = some '.' := by
  cases s with
  | nil => simp [List.splitOn]
  | cons c cs =>
    rw [splitOn_dot_cons]
    by_cases h : c = '.'
    · simp [h]
    · have hne : cs.splitOn '.' ≠ [] := List.splitOnP_ne_nil _ _
      obtain ⟨hd, tl, e⟩ := List.exists_cons_of_ne_nil hne
      simp [h, e]

theorem splitOn_dot_tail_nonempty (s : Str) :
    (∀ seg ∈ (s.splitOn '.').tail, seg ≠ []) ↔
      s.getLast? ≠ some '.' ∧ ¬ ['.', '.'] <:+: s := by
  induction s with
  | nil => simp [List.splitOn]
  | cons c cs ih =>
    rw [splitOn_dot_cons]
    have hne : cs.splitOn '.' ≠ [] := List.splitOnP_ne_nil _ _
    obtain ⟨hd, tl, e⟩ := List.exists_cons_of_ne_nil hne
    have hhead := splitOn_dot_head_nil cs
    rw [e] at ih hhead
    simp only [List.tail_cons, List.head?_cons, Option.some.injEq] at ih hhead
    have hdouble : ['.', '.'] <:+: c :: cs ↔ (c = '.' ∧ cs.head? = some '.') ∨ ['.', '.'] <:+: cs := by
      rw [List.infix_cons_iff]
      apply or_congr_left
      cases cs with
      | nil => simp
      | cons d ds => simp [List.cons_prefix_cons]; tauto
    have hlast : (c :: cs).getLast? = some '.' ↔ (cs = [] ∧ c = '.') ∨ cs.getLast? = some '.' := by
      cases cs with
      | nil => simp
      | cons d ds => simp [List.getLast?_cons_cons]
    rw [hdouble, ne_eq, hlast]
    by_cases h : c = '.'
    · subst h
      simp only [if_true, List.tail_cons, e, List.mem_cons, forall_eq_or_imp, ih, ne_eq,
        and_true, true_and]
      constructor
      · rintro ⟨h1, h2, h3⟩
        have hh : ¬ (cs = [] ∨ cs.head? = some '.') := fun hc => h1 (hhead.2 hc)
        push_neg at hh
        exact ⟨by tauto, by tauto⟩
      · rintro ⟨h1, h2⟩
        push_neg at h1 h2
        refine ⟨fun hc => ?_, h1.2, h2.2⟩
        rcases hhead.1 hc with h3 | h3
        · exact h1.1 h3
        · exact h2.1 h3
    · simp only [h, if_false, e, List.modifyHead_cons, List.tail_cons, ih, false_and,
        and_false, false_or]

namespace search

theorem mem_of_mem_splitOn_dot (s : Str) :
    ∀ seg ∈ s.splitOn '.', ∀ x ∈ seg, x ∈ s := by
  induction s with
  | nil => simp [List.splitOn]
  | cons c cs ih =>
    rw [splitOn_dot_cons]
    have hne : cs.splitOn '.' ≠ [] := List.splitOnP_ne_nil _ _
    obtain ⟨hd, tl, e⟩ := List.exists_cons_of_ne_nil hne
    rw [e] at ih ⊢
    by_cases h : c = '.'
    · simp only [h, if_true, List.mem_cons]
      rintro seg (rfl | hseg) x hx
      · cases hx
      · exact Or.inr (ih seg (List.mem_cons.2 hseg) x hx)
    · simp only [h, if_false, List.modifyHead_cons, List.mem_cons]
      rintro seg (rfl | hseg) x hx
      · rcases List.mem_cons.1 hx with rfl | hx
        · exact Or.inl rfl
        · exact Or.inr (ih hd (List.mem_cons_self _ _) x hx)
      · exact Or.inr (ih seg (List.mem_cons_of_mem _ hseg) x hx)

/-- C20: `isAbsPath path` holds exactly when `path` is non-empty, contains no
`*`, does not begin with `.`, does not end with `.`, and contains no two
consecutive `.` characters. -/
theorem isAbsPath_chars (path : Str) :
    isAbsPath path = true ↔
      path ≠ [] ∧ '*' ∉ path ∧ path.head? ≠ some '.' ∧ path.getLast? ≠ some '.' ∧
        ¬ ['.', '.'] <:+: path := by
  rw [isAbsPath_iff, stringsSplit_dot]
  have hne : path.splitOn '.' ≠ [] := List.splitOnP_ne_nil _ _
  obtain ⟨hd, tl, e⟩ := List.exists_cons_of_ne_nil hne
  have hhead := splitOn_dot_head_nil path
  have htail := splitOn_dot_tail_nonempty path
  have hsub := mem_of_mem_splitOn_dot path
  have hstar := mem_splitOn_dot '*' (by decide) path
  rw [e] at hhead htail hsub hstar
  simp only [List.head?_cons, Option.some.injEq, List.tail_cons] at hhead htail
  rw [e]
  constructor
  · intro h
    have h1 : ¬ (path = [] ∨ path.head? = some '.') :=
      fun hc => (h hd (List.mem_cons_self _ _)).1 (hhead.2 hc)
    push_neg at h1
    have h2 := htail.1 (fun seg hs => (h seg (List.mem_cons_of_mem _ hs)).1)
    refine ⟨h1.1, fun hmem => ?_, h1.2, h2.1, h2.2⟩
    obtain ⟨seg, hs, hx⟩ := hstar hmem
    exact (h seg hs).2 hx
  · rintro ⟨h1, h2, h3, h4, h5⟩ seg hs
    refine ⟨?_, fun hx => h2 (hsub seg hs '*' hx)⟩
    rcases List.mem_cons.1 hs with rfl | hs
    · intro hc
      rcases hhead.1 hc with h | h
      · exact h1 h
      · exact h3 h
    · exact htail.2 ⟨h4, h5⟩ seg hs

end search

theorem totalEntries_mapSet_append (m : List (Str × List Str)) (k : Str) (e : Str) :
    search.totalEntries (mapSet m k (mapGet m k ++ [e])) = search.totalEntries m + 1 := by
  induction m with
  | nil => simp [mapSet, mapGet, search.totalEntries]
  | cons x rest ih =>
    obtain ⟨k', v'⟩ := x
    by_cases h : k' = k
    · simp [mapSet, mapGet, h, search.totalEntries]
      omega
    · simp only [search.totalEntries] at ih
      simp [mapSet, mapGet, h, search.totalEntries, ih]
      omega

namespace search

/-- A visit either leaves the receiver as `Filter` prepared it, or the leaf is
counted and the receiver is that of `matchedState`. -/
theorem runStep_visit (sr sr1 : SearchReplace) (fp : Str) (o : ScalarNode) (p : Str)
    (h : runStep sr (.visit fp o p) = some sr1) :
    (counted { sr with filePath := fp } o p = false ∧ sr1 = { sr with filePath := fp }) ∨
    (counted { sr with filePath := fp } o p = true ∧
      sr1 = (matchedState { sr with filePath := fp } o p).1) := by
  simp only [runStep] at h
  cases hc : counted { sr with filePath := fp } o p with
  | true =>
    right
    rw [visitScalar_of_counted _ o p hc] at h
    simp only [Option.some.injEq] at h
    exact ⟨rfl, h.symm⟩
  | false =>
    left
    refine ⟨rfl, ?_⟩
    rcases visitScalar_shape { sr with filePath := fp } o p with
      ⟨e, _, he⟩ | ⟨_, _, ⟨hp, _⟩ | hu | hm⟩
    · rw [he] at h
      simp only [Option.some.injEq] at h
      exact h.symm
    · rw [hp] at h
      cases h
    · rw [hu] at h
      simp only [Option.some.injEq] at h
      exact h.symm
    · exfalso
      unfold counted at hc
      rw [hm] at hc
      simp [matchedState] at hc

/-- The fast-path write either fails and leaves the receiver as `Filter`
prepared it, or records one entry and counts it. -/
theorem runStep_put (sr : SearchReplace) (fp : Str) (object : YNode) :
    runStep sr (.put fp object) = some { sr with filePath := fp } ∨
    runStep sr (.put fp object) =
      some { sr with
        filePath := fp
        Match := mapSet sr.Match fp (mapGet sr.Match fp ++ [sprintfPathVal sr.ByPath sr.PutLiteral])
        Count := sr.Count + 1 } := by
  have hne := stringsSplit_dot_ne_nil sr.ByPath
  have hlast := List.getLast?_eq_getLast_of_ne_nil hne
  simp only [runStep, SearchReplace.putLiteral, hlast]
  split
  · next h =>
    split at h
    · cases h; exact Or.inl rfl
    · split at h
      · cases h; exact Or.inl rfl
      · cases h; exact Or.inr rfl
  · next h =>
    split at h
    · cases h
    · split at h <;> cases h

/-- What a step keeps and what it does to the count and the match record. -/
theorem runStep_effect (sr sr1 : SearchReplace) (step : Step) (h : runStep sr step = some sr1) :
    (sr1.ByValue = sr.ByValue ∧ sr1.ByValueRegex = sr.ByValueRegex ∧ sr1.regex = sr.regex ∧
      sr1.ByPath = sr.ByPath ∧ sr1.PutLiteral = sr.PutLiteral) ∧
    ((sr1.Count = sr.Count ∧ sr1.Match = sr.Match) ∨
      (sr1.Count = sr.Count + 1 ∧ totalEntries sr1.Match = totalEntries sr.Match + 1) ∨
      (sr1.Count = sr.Count + 1 ∧ sr1.Match = sr.Match ∧ ∃ o p, step = .visit [] o p)) := by
  cases step with
  | visit fp o p =>
    rcases runStep_visit sr sr1 fp o p h with ⟨_, rfl⟩ | ⟨_, rfl⟩
    · exact ⟨⟨rfl, rfl, rfl, rfl, rfl⟩, Or.inl ⟨rfl, rfl⟩⟩
    · refine ⟨⟨rfl, rfl, rfl, rfl, rfl⟩, Or.inr ?_⟩
      by_cases hfp : fp = []
      · subst hfp
        right
        exact ⟨rfl, by simp [matchedState], o, p, rfl⟩
      · left
        refine ⟨rfl, ?_⟩
        simp only [matchedState, hfp, if_false]
        exact totalEntries_mapSet_append _ _ _
  | put fp object =>
    rcases runStep_put sr fp object with h2 | h2
    · rw [h2] at h
      cases h
      exact ⟨⟨rfl, rfl, rfl, rfl, rfl⟩, Or.inl ⟨rfl, rfl⟩⟩
    · rw [h2] at h
      cases h
      exact ⟨⟨rfl, rfl, rfl, rfl, rfl⟩, Or.inr (Or.inl ⟨rfl, totalEntries_mapSet_append _ _ _⟩)⟩

/-- Over a run the settings are kept, the count never falls behind the number of
recorded entries, and the two move together when no leaf of a document
without a file path is visited. -/
theorem runSteps_effect (steps : List Step) :
    ∀ sr sr1 : SearchReplace, runSteps sr steps = some sr1 →
      (sr1.ByValue = sr.ByValue ∧ sr1.ByValueRegex = sr.ByValueRegex ∧ sr1.regex = sr.regex ∧
        sr1.ByPath = sr.ByPath ∧ sr1.PutLiteral = sr.PutLiteral) ∧
      sr.Count - (totalEntries sr.Match : Int) ≤ sr1.Count - (totalEntries sr1.Match : Int) ∧
      ((∀ o p, Step.visit [] o p ∉ steps) →
        sr1.Count - (totalEntries sr1.Match : Int) = sr.Count - (totalEntries sr.Match : Int)) := by
  induction steps with
  | nil =>
    intro sr sr1 h
    simp only [runSteps, Option.some.injEq] at h
    subst h
    exact ⟨⟨rfl, rfl, rfl, rfl, rfl⟩, le_refl _, fun _ => rfl⟩
  | cons step rest ih =>
    intro sr sr1 h
    simp only [runSteps] at h
    cases hs : runStep sr step with
    | none => rw [hs] at h; cases h
    | some sr2 =>
      rw [hs] at h
      obtain ⟨⟨a1, a2, a3, a4, a5⟩, hle, heq⟩ := ih sr2 sr1 h
      obtain ⟨⟨b1, b2, b3, b4, b5⟩, hstep⟩ := runStep_effect sr sr2 step hs
      refine ⟨⟨a1.trans b1, a2.trans b2, a3.trans b3, a4.trans b4, a5.trans b5⟩, ?_, ?_⟩
      · rcases hstep with ⟨h1, h2⟩ | ⟨h1, h2⟩ | ⟨h1, h2, _⟩
        · rw [h1, h2] at hle; exact hle
        · rw [h1, h2] at hle; push_cast at hle; omega
        · rw [h1, h2] at hle; omega
      · intro hno
        have hrest := heq (fun o p hm => hno o p (List.mem_cons_of_mem _ hm))
        rcases hstep with ⟨h1, h2⟩ | ⟨h1, h2⟩ | ⟨_, _, o, p, hv⟩
        · rw [hrest, h1, h2]
        · rw [hrest, h1, h2]; push_cast; omega
        · exact absurd (hv ▸ List.mem_cons_self _ _) (hno o p)

end search

namespace search

theorem counted_congr (sr sr1 : SearchReplace) (o : ScalarNode) (p : Str)
    (h1 : sr1.ByValue = sr.ByValue) (h2 : sr1.ByValueRegex = sr.ByValueRegex)
    (h3 : sr1.regex = sr.regex) (h4 : sr1.ByPath = sr.ByPath) :
    counted sr1 o p = counted sr o p := by
  have hpm := pathMatch_congr sr sr1 p h4
  have hrm : sr1.regexMatch o.Value = sr.regexMatch o.Value := by
    simp [SearchReplace.regexMatch, h2, h3]
  rcases pathMatch_shape sr p with ⟨e, he⟩ | ⟨pm, hp⟩
  · unfold counted SearchReplace.visitScalar
    rw [hpm, he]
  · cases hvm : (if o.Value = sr.ByValue then some true else sr.regexMatch o.Value) with
    | none =>
      rw [(counted_of_panic sr o p pm hp hvm).2,
        (counted_of_panic sr1 o p pm (hpm.trans hp) (by rw [h1, hrm]; exact hvm)).2]
    | some vm =>
      rw [counted_eval sr o p pm vm hp hvm,
        counted_eval sr1 o p pm vm (hpm.trans hp) (by rw [h1, hrm]; exact hvm), h1, h2, h4]

/-- A run of visits of leaves that are not counted keeps the count and the
match record. -/
theorem runSteps_uncounted (steps : List Step) :
    ∀ sr sr1 : SearchReplace, runSteps sr steps = some sr1 →
      (∀ s ∈ steps, ∃ fp o p, s = .visit fp o p ∧ counted sr o p = false) →
      sr1.Count = sr.Count ∧ sr1.Match = sr.Match ∧ sr1.ByValue = sr.ByValue ∧
        sr1.ByValueRegex = sr.ByValueRegex ∧ sr1.regex = sr.regex ∧ sr1.ByPath = sr.ByPath ∧
        sr1.PutLiteral = sr.PutLiteral := by
  induction steps with
  | nil =>
    intro sr sr1 h _
    simp only [runSteps, Option.some.injEq] at h
    subst h
    exact ⟨rfl, rfl, rfl, rfl, rfl, rfl, rfl⟩
  | cons step rest ih =>
    intro sr sr1 h hun
    simp only [runSteps] at h
    cases hs : runStep sr step with
    | none => rw [hs] at h; cases h
    | some sr2 =>
      rw [hs] at h
      obtain ⟨fp, o, p, rfl, hc⟩ := hun step (List.mem_cons_self _ _)
      have hc2 : counted { sr with filePath := fp } o p = false :=
        (counted_congr sr { sr with filePath := fp } o p rfl rfl rfl rfl).trans hc
      rcases runStep_visit sr sr2 fp o p hs with ⟨_, rfl⟩ | ⟨hc3, _⟩
      · have := ih _ sr1 h (fun s hs2 => by
          obtain ⟨fp2, o2, p2, e, hc4⟩ := hun s (List.mem_cons_of_mem _ hs2)
          exact ⟨fp2, o2, p2, e,
            (counted_congr sr { sr with filePath := fp } o2 p2 rfl rfl rfl rfl).trans hc4⟩)
        exact this
      · rw [hc2] at hc3; cases hc3

theorem runSteps_append (a b : List Step) :
    ∀ sr : SearchReplace, runSteps sr (a ++ b) = (runSteps sr a).bind (fun s => runSteps s b) := by
  induction a with
  | nil => intro sr; rfl
  | cons step rest ih =>
    intro sr
    simp only [List.cons_append, runSteps]
    cases runStep sr step with
    | none => rfl
    | some sr2 => exact ih sr2

/-- With a compiled regex no step panics. -/
theorem runSteps_total (steps : List Step) :
    ∀ sr : SearchReplace, (sr.ByValueRegex ≠ [] → sr.regex ≠ none) →
      ∃ sr1, runSteps sr steps = some sr1 := by
  induction steps with
  | nil => exact fun sr _ => ⟨sr, rfl⟩
  | cons step rest ih =>
    intro sr hwf
    have hstep : ∃ sr2, runStep sr step = some sr2 := by
      cases step with
      | put fp object => rcases runStep_put sr fp object with h | h <;> exact ⟨_, h⟩
      | visit fp o p =>
        simp only [runStep]
        rcases visitScalar_shape { sr with filePath := fp } o p with
          ⟨e, _, he⟩ | ⟨_, _, ⟨_, hp⟩ | hu | hm⟩
        · rw [he]; exact ⟨_, rfl⟩
        · exfalso
          rcases valueMatch_cases { sr with filePath := fp } o.Value with
            ⟨_, _, hr, hn, _⟩ | ⟨hv, _⟩
          · exact hwf hr hn
          · rw [hv] at hp; cases hp
        · rw [hu]; exact ⟨_, rfl⟩
        · rw [hm]; exact ⟨_, rfl⟩
    obtain ⟨sr2, h2⟩ := hstep
    obtain ⟨⟨_, b2, b3, _, _⟩, _⟩ := runStep_effect sr sr2 step h2
    obtain ⟨sr1, h1⟩ := ih sr2 (by rw [b2, b3]; exact hwf)
    exact ⟨sr1, by simp only [runSteps, h2, h1]⟩

/-- C11 as amended: starting from `Count = 0` and an empty match record, after
any sequence of scalar-leaf visits and fast-path writes that does not panic,
the number of recorded entries never exceeds `Count`, and it equals `Count`
when every visited leaf belongs to a document with a non-empty file path; with
a compiled regex no step panics; and when exactly one visited leaf of a
document at a non-empty file path is counted, `Count` is 1 and the match record
holds exactly one entry, under that file path. -/
theorem runSteps_count_entries (sr0 : SearchReplace) (steps : List Step)
    (hcount : sr0.Count = 0) (hmatch : sr0.Match = []) :
    (∀ sr1, runSteps sr0 steps = some sr1 →
      (totalEntries sr1.Match : Int) ≤ sr1.Count ∧
      ((∀ o p, Step.visit [] o p ∉ steps) → sr1.Count = (totalEntries sr1.Match : Int))) ∧
    ((sr0.ByValueRegex ≠ [] → sr0.regex ≠ none) → ∃ sr1, runSteps sr0 steps = some sr1) ∧
    (∀ (pre post : List Step) (fp : Str) (o : ScalarNode) (p : Str) (sr1 : SearchReplace),
      steps = pre ++ Step.visit fp o p :: post → fp ≠ [] → counted sr0 o p = true →
      (∀ s ∈ pre ++ post, ∃ fp2 o2 p2, s = .visit fp2 o2 p2 ∧ counted sr0 o2 p2 = false) →
      runSteps sr0 steps = some sr1 →
        sr1.Count = 1 ∧ totalEntries sr1.Match = 1 ∧
        sr1.Match = [(fp, [stringsTrimPrefix p PathDelimiter ++ ": ".toList ++
          (if sr0.PutLiteral = [] then o.Value else sr0.PutLiteral)])]) := by
  have htotal0 : totalEntries sr0.Match = 0 := by rw [hmatch]; rfl
  refine ⟨fun sr1 h => ?_, runSteps_total steps sr0, ?_⟩
  · obtain ⟨_, hle, heq⟩ := runSteps_effect steps sr0 sr1 h
    rw [hcount, htotal0] at hle heq
    refine ⟨by simp at hle; omega, fun hno => ?_⟩
    have := heq hno
    simp at this
    omega
  · intro pre post fp o p sr1 hsteps hfp hc hun hrun
    rw [hsteps, runSteps_append] at hrun
    cases hpre : runSteps sr0 pre with
    | none => rw [hpre] at hrun; cases hrun
    | some s1 =>
      rw [hpre] at hrun
      simp only [Option.some_bind, runSteps] at hrun
      obtain ⟨c1, m1, f1, f2, f3, f4, f5⟩ := runSteps_uncounted pre sr0 s1 hpre
        (fun s hs => hun s (List.mem_append_left _ hs))
      cases hmid : runStep s1 (.visit fp o p) with
      | none => rw [hmid] at hrun; cases hrun
      | some s2 =>
        rw [hmid] at hrun
        have hc1 : counted { s1 with filePath := fp } o p = true :=
          (counted_congr sr0 { s1 with filePath := fp } o p f1 f2 f3 f4).trans hc
        rcases runStep_visit s1 s2 fp o p hmid with ⟨hc2, _⟩ | ⟨_, hs2⟩
        · rw [hc1] at hc2; cases hc2
        · obtain ⟨c2, m2, _, _, _, _, _⟩ := runSteps_uncounted post s2 sr1 hrun
            (fun s hs => by
              obtain ⟨fp2, o2, p2, e, hc4⟩ := hun s (List.mem_append_right _ hs)
              refine ⟨fp2, o2, p2, e, ?_⟩
              rw [hs2]
              exact (counted_congr sr0 (matchedState { s1 with filePath := fp } o p).1 o2 p2
                f1 f2 f3 f4).trans hc4)
          have hm : sr1.Match = [(fp, [stringsTrimPrefix p PathDelimiter ++ ": ".toList ++
              (if sr0.PutLiteral = [] then o.Value else sr0.PutLiteral)])] := by
            rw [m2, hs2]
            simp [matchedState, hfp, m1, hmatch, f5, mapSet, mapGet, sprintfPathVal]
          refine ⟨?_, ?_, hm⟩
          · rw [c2, hs2]
            simp [matchedState, c1, hcount]
          · rw [hm]
            simp [totalEntries]

theorem runSteps_count_entries_witness :
    exValueOnly.Count = 0 ∧ exValueOnly.Match = [] ∧
    ((∀ sr1, runSteps exValueOnly [.visit "f.yaml".toList ⟨"x".toList⟩ ".a".toList,
          .visit "f.yaml".toList ⟨"z".toList⟩ ".b".toList] = some sr1 →
        (totalEntries sr1.Match : Int) ≤ sr1.Count ∧
        ((∀ o p, Step.visit [] o p ∉ [Step.visit "f.yaml".toList ⟨"x".toList⟩ ".a".toList,
            .visit "f.yaml".toList ⟨"z".toList⟩ ".b".toList]) →
          sr1.Count = (totalEntries sr1.Match : Int)))) :=
  ⟨rfl, rfl, (runSteps_count_entries exValueOnly _ rfl rfl).1⟩

/-- C11, as stated, fails: a matched leaf of a document without a file path is
counted but not recorded, so after one such visit from `Count = 0` and an empty
match record `Count` is 1 while the match record holds no entry. -/
theorem runSteps_count_entries_counterexample :
    ¬ (∀ (sr0 : SearchReplace) (steps : List Step) (sr1 : SearchReplace),
        sr0.Count = 0 → sr0.Match = [] → runSteps sr0 steps = some sr1 →
          sr1.Count = (totalEntries sr1.Match : Int)) := by
  intro h
  have h1 := h exValueOnly [.visit [] ⟨"x".toList⟩ ".a".toList]
    (matchedState exValueOnly ⟨"x".toList⟩ ".a".toList).1 rfl rfl (by
      simp only [runSteps, runStep]
      rw [visitScalar_of_counted _ ⟨"x".toList⟩ ".a".toList (by decide)]
      rfl)
  revert h1
  decide

end search

namespace search

theorem regexMatch_ne_none (sr : SearchReplace) (hwf : sr.ByValueRegex ≠ [] → sr.regex ≠ none)
    (value : Str) : sr.regexMatch value ≠ none := by
  unfold SearchReplace.regexMatch
  by_cases hr : sr.ByValueRegex = []
  · simp [hr]
  · cases hre : sr.regex with
    | none => exact absurd hre (hwf hr)
    | some re => simp [hr]

/-- C13: when the non-empty `ByValueRegex` does not compile, `Perform` returns
the compile error without running the pipeline (whatever the pipeline is): the
package is as it was and `Count` is unchanged.  When `Perform` does run the
pipeline, the receiver it runs it with has the compiled regex set whenever
`ByValueRegex` is non-empty, so `regexMatch` never meets an unset matcher, not
at the start and not after any sequence of visits and writes, none of which
panics. -/
theorem Perform_regex {ω : Type} (Compile : Str → Except Error Regexp)
    (Execute : Str → SearchReplace → ω → Outcome (SearchReplace × ω))
    (sr : SearchReplace) (resourcesPath : Str) (w : ω) :
    (sr.ByValueRegex ≠ [] → ∀ e, Compile sr.ByValueRegex = .error e →
      sr.Perform Compile Execute resourcesPath w = .returned ({ sr with Match := [] }, w) (some e) ∧
      ∀ Execute2 : Str → SearchReplace → ω → Outcome (SearchReplace × ω),
        sr.Perform Compile Execute2 resourcesPath w = sr.Perform Compile Execute resourcesPath w) ∧
    ((sr.ByValueRegex = [] ∨ ∃ re, Compile sr.ByValueRegex = .ok re) →
      ∃ sr1, sr.Perform Compile Execute resourcesPath w = Execute resourcesPath sr1 w ∧
        sr1.Count = sr.Count ∧ sr1.Match = [] ∧ sr1.ByValueRegex = sr.ByValueRegex ∧
        (sr1.ByValueRegex ≠ [] → ∃ re, Compile sr.ByValueRegex = .ok re ∧ sr1.regex = some re) ∧
        (∀ value, sr1.regexMatch value ≠ none) ∧
        ∀ steps, ∃ sr2, runSteps sr1 steps = some sr2 ∧ ∀ value, sr2.regexMatch value ≠ none) := by
  constructor
  · intro hr e he
    have hrun : ∀ Ex : Str → SearchReplace → ω → Outcome (SearchReplace × ω),
        sr.Perform Compile Ex resourcesPath w =
          .returned ({ sr with Match := [] }, w) (some e) := by
      intro Ex
      simp only [SearchReplace.Perform, ne_eq, hr, not_false_eq_true, if_true, he]
    exact ⟨hrun Execute, fun Ex => (hrun Ex).trans (hrun Execute).symm⟩
  · intro h
    have key : ∀ sr1 : SearchReplace, sr1.ByValueRegex = sr.ByValueRegex →
        (sr1.ByValueRegex ≠ [] → sr1.regex ≠ none) →
        (∀ value, sr1.regexMatch value ≠ none) ∧
        ∀ steps, ∃ sr2, runSteps sr1 steps = some sr2 ∧ ∀ value, sr2.regexMatch value ≠ none := by
      intro sr1 _ hwf
      refine ⟨regexMatch_ne_none sr1 hwf, fun steps => ?_⟩
      obtain ⟨sr2, h2⟩ := runSteps_total steps sr1 hwf
      obtain ⟨⟨_, b2, b3, _, _⟩, _⟩ := runSteps_effect steps sr1 sr2 h2
      exact ⟨sr2, h2, regexMatch_ne_none sr2 (by rw [b2, b3]; exact hwf)⟩
    by_cases hr : sr.ByValueRegex = []
    · refine ⟨{ sr with Match := [] }, ?_, rfl, rfl, rfl, fun hne => absurd hr hne, ?_⟩
      · simp [SearchReplace.Perform, hr]
      · exact key _ rfl (fun hne => absurd hr hne)
    · rcases h with h | ⟨re, hre⟩
      · exact absurd h hr
      · refine ⟨{ sr with Match := [], regex := some re }, ?_, rfl, rfl, rfl,
          fun _ => ⟨re, hre, rfl⟩, ?_⟩
        · simp only [SearchReplace.Perform, ne_eq, hr, not_false_eq_true, if_true, hre]
        · exact key _ rfl (fun _ => by simp)

theorem Perform_regex_witness :
    exRegexOnly.Perform exCompileFails exExecute "pkg".toList (0 : Nat) =
        .returned ({ exRegexOnly with Match := [] }, 0) (some "error parsing regexp") ∧
      ∀ Execute2 : Str → SearchReplace → Nat → Outcome (SearchReplace × Nat),
        exRegexOnly.Perform exCompileFails Execute2 "pkg".toList 0 =
          exRegexOnly.Perform exCompileFails exExecute "pkg".toList 0 :=
  (Perform_regex exCompileFails exExecute exRegexOnly "pkg".toList (0 : Nat)).1 (by decide)
    "error parsing regexp" rfl

end search

theorem filter_eq_singleton_of_nodup_map {α β : Type} [DecidableEq β] (f : α → β) (l : List α)
    (hnd : (l.map f).Nodup) (d : α) (hd : d ∈ l) :
    l.filter (fun x => decide (f x = f d)) = [d] := by
  induction l with
  | nil => cases hd
  | cons a t ih =>
    rw [List.map_cons, List.nodup_cons] at hnd
    rcases List.mem_cons.1 hd with rfl | hd
    · have hnone : t.filter (fun x => decide (f x = f d)) = [] := by
        rw [List.filter_eq_nil_iff]
        intro x hx
        simp only [decide_eq_true_eq]
        intro he
        exact hnd.1 (he ▸ List.mem_map_of_mem f hx)
      simp [List.filter_cons, hnone]
    · have hne : ¬ f a = f d := fun he => hnd.1 (he ▸ List.mem_map_of_mem f hd)
      simp [List.filter_cons, hne, ih hnd.2 hd]

namespace merge

variable {R σ : Type}

/-- The merge loop over keys whose groups are single documents emits those
documents and never calls `Merge`. -/
theorem mergeLoop_singletons (Merge : R → R → σ → Except Error R × σ)
    (index : List (mergeKey × List R)) (ks : List mergeKey) :
    ∀ (out : List (Option R)) (s : σ), (∀ k ∈ ks, ∃ d, mapGet index k = [d]) →
      mergeLoop Merge index ks out s =
        (.ok (out ++ ks.map (fun k => (mapGet index k).head?)), s) := by
  induction ks with
  | nil => intro out s _; simp [mergeLoop]
  | cons k rest ih =>
    intro out s h
    obtain ⟨d, hd⟩ := h k (List.mem_cons_self _ _)
    simp only [mergeLoop, hd, mergeResources, List.map_cons, List.head?_cons]
    rw [ih (out ++ [some d]) s (fun k2 hk2 => h k2 (List.mem_cons_of_mem _ hk2))]
    simp

/-- C14: on an input whose documents have pairwise distinct identity keys and on
which identity extraction succeeds, `Filter` returns without error a
permutation of the input, each document emitted as it is, and `merge.Merge`
is never applied: the state it acts on is untouched and the result is the same
whatever `Merge` is. -/
theorem Filter_distinct_keys (GetMeta : R → Except Error ResourceMeta)
    (Merge : R → R → σ → Except Error R × σ)
    (rangeOrder : List mergeKey → List mergeKey) (input : List R) (s : σ)
    (hrange : ∀ ks, (rangeOrder ks).Perm ks)
    (hmeta : ∀ d ∈ input, ∃ meta, GetMeta d = .ok meta)
    (hdistinct : (input.map (keyOf GetMeta)).Nodup) :
    (Filter GetMeta Merge rangeOrder input s).err = none ∧
    (Filter GetMeta Merge rangeOrder input s).output.Perm (input.map some) ∧
    (Filter GetMeta Merge rangeOrder input s).state = s ∧
    ∀ Merge2 : R → R → σ → Except Error R × σ,
      Filter GetMeta Merge2 rangeOrder input s = Filter GetMeta Merge rangeOrder input s := by
  have hsome := keyOf_ne_none_of_ok GetMeta input hmeta
  have hgroup : ∀ d ∈ input, ∀ k, keyOf GetMeta d = some k → group GetMeta input k = [d] := by
    intro d hd k hk
    have := filter_eq_singleton_of_nodup_map (keyOf GetMeta) input hdistinct d hd
    rw [hk] at this
    exact this
  obtain ⟨index, hidx, hget, hnd, hkeys⟩ := indexLoop_ok GetMeta input [] hsome
  have hget2 : ∀ k, mapGet index k = group GetMeta input k := by
    intro k; rw [hget k]; simp [mapGet]
  have hmem : ∀ k, k ∈ rangeOrder (mapKeys index) ↔ ∃ d ∈ input, keyOf GetMeta d = some k := by
    intro k
    rw [(hrange _).mem_iff, hkeys k]
    simp [mapKeys]
  have hkeysnd : (rangeOrder (mapKeys index)).Nodup :=
    (hrange _).nodup_iff.2 (hnd (by simp [mapKeys]))
  have hsingle : ∀ k ∈ rangeOrder (mapKeys index), ∃ d, mapGet index k = [d] := by
    intro k hk
    obtain ⟨d, hd, hdk⟩ := (hmem k).1 hk
    exact ⟨d, by rw [hget2 k]; exact hgroup d hd k hdk⟩
  have hrun : ∀ M : R → R → σ → Except Error R × σ,
      Filter GetMeta M rangeOrder input s =
        { output := (rangeOrder (mapKeys index)).map (fun k => (mapGet index k).head?),
          err := none, state := s } := by
    intro M
    simp only [Filter, hidx, mergeLoop_singletons M index _ [] s hsingle, List.nil_append]
  refine ⟨by rw [hrun], ?_, by rw [hrun], fun M2 => by rw [hrun, hrun]⟩
  rw [hrun]
  show ((rangeOrder (mapKeys index)).map (fun k => (mapGet index k).head?)).Perm (input.map some)
  have hK : (input.filterMap (keyOf GetMeta)).map some = input.map (keyOf GetMeta) := by
    clear hgroup hdistinct hget hkeys hget2 hmem hsingle hrun hidx
    induction input with
    | nil => rfl
    | cons d t ih =>
      obtain ⟨k, hk⟩ := Option.ne_none_iff_exists'.1 (hsome d (List.mem_cons_self _ _))
      have iht := ih (fun x hx => hmeta x (List.mem_cons_of_mem _ hx))
        (fun x hx => hsome x (List.mem_cons_of_mem _ hx))
      simp [List.filterMap_cons, hk, iht]
  have hKnd : (input.filterMap (keyOf GetMeta)).Nodup := by
    apply List.Nodup.of_map some
    rw [hK]
    exact hdistinct
  have hperm : (rangeOrder (mapKeys index)).Perm (input.filterMap (keyOf GetMeta)) := by
    rw [List.perm_ext_iff_of_nodup hkeysnd hKnd]
    intro k
    rw [hmem k, List.mem_filterMap]
  have hmap : (input.filterMap (keyOf GetMeta)).map (fun k => (mapGet index k).head?) =
      input.map some := by
    have hall : ∀ d ∈ input, ∀ k, keyOf GetMeta d = some k → (mapGet index k).head? = some d := by
      intro d hd k hk
      rw [hget2 k, hgroup d hd k hk]
      rfl
    clear hgroup hdistinct hget hkeys hget2 hmem hsingle hrun hidx hperm hKnd hK
    induction input with
    | nil => rfl
    | cons d t ih =>
      obtain ⟨k, hk⟩ := Option.ne_none_iff_exists'.1 (hsome d (List.mem_cons_self _ _))
      have iht := ih (fun x hx => hmeta x (List.mem_cons_of_mem _ hx))
        (fun x hx => hsome x (List.mem_cons_of_mem _ hx))
        (fun x hx k2 hk2 => hall x (List.mem_cons_of_mem _ hx) k2 hk2)
      simp [List.filterMap_cons, hk, iht, hall d (List.mem_cons_self _ _) k hk]
  rw [← hmap]
  exact hperm.map _

theorem Filter_distinct_keys_witness :
    (Filter exGetMeta exMerge List.reverse
        [⟨exMeta "a".toList, ["x".toList]⟩, ⟨exMeta "b".toList, ["y".toList]⟩] 0).err = none ∧
    (Filter exGetMeta exMerge List.reverse
        [⟨exMeta "a".toList, ["x".toList]⟩, ⟨exMeta "b".toList, ["y".toList]⟩] 0).output.Perm
      (([⟨exMeta "a".toList, ["x".toList]⟩, ⟨exMeta "b".toList, ["y".toList]⟩] :
        List ExDoc).map some) ∧
    (Filter exGetMeta exMerge List.reverse
        [⟨exMeta "a".toList, ["x".toList]⟩, ⟨exMeta "b".toList, ["y".toList]⟩] 0).state = 0 ∧
    ∀ Merge2 : ExDoc → ExDoc → Nat → Except Error ExDoc × Nat,
      Filter exGetMeta Merge2 List.reverse
          [⟨exMeta "a".toList, ["x".toList]⟩, ⟨exMeta "b".toList, ["y".toList]⟩] 0 =
        Filter exGetMeta exMerge List.reverse
          [⟨exMeta "a".toList, ["x".toList]⟩, ⟨exMeta "b".toList, ["y".toList]⟩] 0 :=
  Filter_distinct_keys exGetMeta exMerge List.reverse _ 0 (fun ks => List.reverse_perm ks)
    (fun d _ => ⟨d.meta, rfl⟩) (by decide)

end merge

namespace merge

variable {R σ : Type}

theorem mergeNode_mapping (keys : List Str) (sf df : List (Str × YNode)) :
    mergeNode keys (.mapping sf) (.mapping df) = some (.mapping (mergeFields keys sf df)) := rfl

theorem mergeNode_sequence (keys : List Str) (ss ds : List YNode) :
    mergeNode keys (.sequence ss) (.sequence ds) =
      some (.sequence (mergeElems keys (assocKey keys ss ds) ss ds)) := rfl

theorem mergeNode_null (keys : List Str) (d : YNode) : mergeNode keys .null d = none := by
  cases d <;> rfl

theorem mergeNode_scalar (keys : List Str) (v : Str) (d : YNode) :
    mergeNode keys (.scalar v) d = some (.scalar v) := by
  cases d <;> rfl

theorem mergeFields_nil (keys : List Str) (df : List (Str × YNode)) :
    mergeFields keys [] df = df := rfl

theorem mergeFields_cons (keys : List Str) (n : Str) (sv : YNode) (rest df : List (Str × YNode)) :
    mergeFields keys ((n, sv) :: rest) df =
      mergeFields keys rest (mergeField df n sv (fun dv => mergeNode keys sv dv)) := rfl

theorem mergeElems_nil_some (keys : List Str) (k : Str) (ds : List YNode) :
    mergeElems keys (some k) [] ds = ds := rfl

theorem mergeElems_cons_some (keys : List Str) (k : Str) (s : YNode) (rest ds : List YNode) :
    mergeElems keys (some k) (s :: rest) ds =
      mergeElems keys (some k) rest (mergeElem k s ds (fun a => mergeNode keys s a)) := rfl

theorem mergeElems_none (keys : List Str) (ss ds : List YNode) :
    mergeElems keys none ss ds = ss := by
  induction ss with
  | nil => rfl
  | cons s rest ih => exact congrArg (List.cons s) ih

theorem fieldGet_fieldDelete_same (fields : List (Str × YNode)) (name : Str) :
    fieldGet (fieldDelete fields name) name = none := by
  induction fields with
  | nil => rfl
  | cons e rest ih =>
    obtain ⟨k, v⟩ := e
    unfold fieldDelete at ih ⊢
    by_cases h : k = name
    · simp [List.filter_cons, h, ih]
    · simp [List.filter_cons, h, fieldGet, ih]

theorem fieldGet_fieldDelete_other (fields : List (Str × YNode)) (name other : Str)
    (hne : other ≠ name) : fieldGet (fieldDelete fields name) other = fieldGet fields other := by
  induction fields with
  | nil => rfl
  | cons e rest ih =>
    obtain ⟨k, v⟩ := e
    unfold fieldDelete at ih ⊢
    by_cases h : k = name
    · subst h
      simp [List.filter_cons, fieldGet, hne.symm, ih]
    · by_cases h2 : k = other
      · subst h2
        simp [List.filter_cons, h, fieldGet]
      · simp [List.filter_cons, h, fieldGet, h2, ih]

/-- Merging one field leaves the other fields of the accumulator alone. -/
theorem fieldGet_mergeField_other (df : List (Str × YNode)) (name other : Str) (sv : YNode)
    (f : YNode → Option YNode) (hne : other ≠ name) :
    fieldGet (mergeField df name sv f) other = fieldGet df other := by
  unfold mergeField
  split
  · split
    · exact fieldGet_fieldDelete_other df name other hne
    · exact fieldGet_fieldSet_other df name other _ hne
  · split
    · rfl
    · exact fieldGet_fieldSet_other df name other _ hne

/-- A field the overriding mapping does not name is left as it is. -/
theorem fieldGet_mergeFields_absent (keys : List Str) (sf : List (Str × YNode)) (n : Str)
    (habs : n ∉ sf.map Prod.fst) :
    ∀ df, fieldGet (mergeFields keys sf df) n = fieldGet df n := by
  induction sf with
  | nil => intro df; rfl
  | cons e rest ih =>
    intro df
    obtain ⟨k, v⟩ := e
    simp only [List.map_cons, List.mem_cons, not_or] at habs
    rw [mergeFields_cons, ih habs.2, fieldGet_mergeField_other df k n v _ habs.1]

theorem fieldGet_eq_none_iff (fields : List (Str × YNode)) (n : Str) :
    fieldGet fields n = none ↔ n ∉ fields.map Prod.fst := by
  induction fields with
  | nil => simp [fieldGet]
  | cons e rest ih =>
    obtain ⟨k, v⟩ := e
    rw [List.map_cons, List.mem_cons]
    by_cases h : k = n
    · simp only [fieldGet, h, if_true]
      constructor
      · intro hc; cases hc
      · intro hc; exact absurd (Or.inl trivial) hc
    · have h2 : ¬ n = k := fun e => h e.symm
      simp only [fieldGet, h, if_false, ih]
      constructor
      · rintro h3 (h4 | h4)
        · exact h2 h4
        · exact h3 h4
      · intro h3 h4
        exact h3 (Or.inr h4)

/-- A field the overriding mapping sets to an explicit null is gone. -/
theorem fieldGet_mergeFields_null (keys : List Str) (sf : List (Str × YNode)) (n : Str)
    (hnd : (sf.map Prod.fst).Nodup) (hnull : fieldGet sf n = some .null) :
    ∀ df, fieldGet (mergeFields keys sf df) n = none := by
  induction sf with
  | nil => simp [fieldGet] at hnull
  | cons e rest ih =>
    intro df
    obtain ⟨k, v⟩ := e
    rw [List.map_cons, List.nodup_cons] at hnd
    rw [mergeFields_cons]
    by_cases h : k = n
    · subst h
      simp only [fieldGet, if_true, Option.some.injEq] at hnull
      subst hnull
      rw [fieldGet_mergeFields_absent keys rest k hnd.1]
      unfold mergeField
      split
      · simp only [mergeNode_null]
        exact fieldGet_fieldDelete_same df k
      · next hg => exact hg
    · simp only [fieldGet, h, if_false] at hnull
      exact ih hnd.2 hnull _

/-- `Filter` on two documents with one identity key returns the later document
merged, as the overriding source, into the earlier one. -/
theorem Filter_pair (GetMeta : R → Except Error ResourceMeta)
    (Merge : R → R → σ → Except Error R × σ) (rangeOrder : List mergeKey → List mergeKey)
    (hrange : ∀ ks, (rangeOrder ks).Perm ks) (acc over : R) (s : σ) (k : mergeKey)
    (hacc : keyOf GetMeta acc = some k) (hover : keyOf GetMeta over = some k) :
    Filter GetMeta Merge rangeOrder [acc, over] s =
      match Merge over acc s with
      | (.error err, s1) => { output := [], err := some err, state := s1 }
      | (.ok merged, s1) => { output := [some merged], err := none, state := s1 } := by
  have hk : ∀ d, keyOf GetMeta d = some k → ∃ meta, GetMeta d = .ok meta ∧ mergeKey.ofMeta meta = k := by
    intro d hd
    unfold keyOf at hd
    cases hg : GetMeta d with
    | error e => rw [hg] at hd; cases hd
    | ok meta => rw [hg] at hd; exact ⟨meta, rfl, Option.some.inj hd⟩
  obtain ⟨m1, hm1, hk1⟩ := hk acc hacc
  obtain ⟨m2, hm2, hk2⟩ := hk over hover
  have horder : rangeOrder [k] = [k] := List.perm_singleton.1 (hrange [k])
  simp only [Filter, indexLoop, hm1, hm2, hk1, hk2, mapGet, mapSet, if_true, List.nil_append,
    List.singleton_append, mapKeys, List.map_cons, List.map_nil, horder, mergeLoop,
    mergeResources]
  rcases Merge over acc s with ⟨r, s1⟩
  cases r <;> rfl

end merge

namespace merge

/-- A field both mappings have ends up as the merge of the two values. -/
theorem fieldGet_mergeFields_present (keys : List Str) (sf : List (Str × YNode)) (n : Str)
    (sv v : YNode) (hnd : (sf.map Prod.fst).Nodup) (hs : fieldGet sf n = some sv) :
    ∀ df dv, fieldGet df n = some dv → mergeNode keys sv dv = some v →
      fieldGet (mergeFields keys sf df) n = some v := by
  induction sf with
  | nil => simp [fieldGet] at hs
  | cons e rest ih =>
    intro df dv hd hm
    obtain ⟨k, x⟩ := e
    rw [List.map_cons, List.nodup_cons] at hnd
    rw [mergeFields_cons]
    by_cases h : k = n
    · subst h
      simp only [fieldGet, if_true, Option.some.injEq] at hs
      subst hs
      rw [fieldGet_mergeFields_absent keys rest k hnd.1]
      simp only [mergeField, hd, hm]
      exact fieldGet_fieldSet_same df k v
    · simp only [fieldGet, h, if_false] at hs
      refine ih hnd.2 hs _ dv ?_ hm
      rw [fieldGet_mergeField_other df k n x _ (fun e => h e.symm)]
      exact hd

theorem keyValue_eq_some (key : Str) (n : YNode) (v : Str) :
    keyValue key n = some v ↔ ∃ fs, n = .mapping fs ∧ fieldGet fs key = some (.scalar v) := by
  cases n with
  | mapping fs =>
    simp only [keyValue, YNode.mapping.injEq, exists_eq_left']
    split
    · next w h => rw [h]; simp
    · next h =>
      constructor
      · intro hc; cases hc
      · intro hc; exact absurd hc (h v)
  | null => exact ⟨fun h => (by cases h), fun ⟨_, h, _⟩ => (by cases h)⟩
  | scalar w => exact ⟨fun h => (by cases h), fun ⟨_, h, _⟩ => (by cases h)⟩
  | sequence es => exact ⟨fun h => (by cases h), fun ⟨_, h, _⟩ => (by cases h)⟩

theorem keyMatches_iff (key : Str) (s a : YNode) :
    keyMatches key s a = true ↔ ∃ v, keyValue key s = some v ∧ keyValue key a = some v := by
  unfold keyMatches
  cases hs : keyValue key s with
  | none => simp
  | some v =>
    cases ha : keyValue key a with
    | none => simp
    | some w => simp [eq_comm]

/-- Merging an overriding element into the element it matches keeps the value
of the associative key. -/
theorem keyValue_merge (keys : List Str) (key : Str) (sf : List (Str × YNode)) (a : YNode)
    (hnd : (sf.map Prod.fst).Nodup) (hm : keyMatches key (.mapping sf) a = true) :
    keyValue key ((mergeNode keys (.mapping sf) a).getD a) = keyValue key a := by
  obtain ⟨v, hs, ha⟩ := (keyMatches_iff key _ a).1 hm
  obtain ⟨fs, hfs, hget⟩ := (keyValue_eq_some key _ v).1 hs
  injection hfs with hfs
  subst hfs
  obtain ⟨df, rfl, hdget⟩ := (keyValue_eq_some key a v).1 ha
  rw [mergeNode_mapping, Option.getD_some, ha]
  exact (keyValue_eq_some key _ v).2 ⟨_, rfl,
    fieldGet_mergeFields_present keys sf key _ _ hnd hget df _ hdget (mergeNode_scalar keys v _)⟩

theorem keyMatches_congr (key : Str) (s a b : YNode) (h : keyValue key a = keyValue key b) :
    keyMatches key s a = keyMatches key s b := by
  unfold keyMatches
  rw [h]

/-- What the element-wise merge on the associative key computes: every element
of the accumulator in its place, merged with the overriding element that
matches it if there is one, followed by the overriding elements that match
none, in their order. -/
theorem mergeElems_assoc (keys : List Str) (key : Str) (ss : List YNode) :
    (∀ s ∈ ss, ∃ sf, s = .mapping sf ∧ (sf.map Prod.fst).Nodup) →
    (∀ s ∈ ss, (keyValue key s).isSome = true) →
    (ss.map (keyValue key)).Nodup →
    ∀ acc : List YNode,
      mergeElems keys (some key) ss acc =
        acc.map (fun a =>
          match ss.find? (fun s => keyMatches key s a) with
          | some s => (mergeNode keys s a).getD a
          | none => a) ++
        ss.filter (fun s => !acc.any (keyMatches key s)) := by
  induction ss with
  | nil => intro _ _ _ acc; simp [mergeElems_nil_some]
  | cons s rest ih =>
    intro hwf hsome hnd acc
    rw [List.map_cons, List.nodup_cons] at hnd
    obtain ⟨sf, rfl, hsf⟩ := hwf _ (List.mem_cons_self _ _)
    obtain ⟨v, hv⟩ := Option.isSome_iff_exists.1 (hsome _ (List.mem_cons_self _ _))
    -- no later overriding element matches what the current one matches
    have hlater : ∀ s2 ∈ rest, ∀ a, keyValue key a = some v → keyMatches key s2 a = false := by
      intro s2 hs2 a ha
      cases hc : keyMatches key s2 a with
      | false => rfl
      | true =>
        exfalso
        obtain ⟨w, h1, h2⟩ := (keyMatches_iff key s2 a).1 hc
        rw [ha] at h2
        cases h2
        exact hnd.1 (List.mem_map.2 ⟨s2, hs2, h1.trans hv.symm⟩)
    rw [mergeElems_cons_some,
      ih (fun x hx => hwf x (List.mem_cons_of_mem _ hx))
        (fun x hx => hsome x (List.mem_cons_of_mem _ hx)) hnd.2]
    unfold mergeElem
    by_cases hany : acc.any (keyMatches key (.mapping sf)) = true
    · rw [if_pos hany]
      have hkeep : ∀ a, keyValue key
          (if keyMatches key (.mapping sf) a = true then
            (mergeNode keys (.mapping sf) a).getD a else a) = keyValue key a := by
        intro a
        split
        · next hm => exact keyValue_merge keys key sf a hsf hm
        · rfl
      have hmatch : ∀ s2 a, keyMatches key s2
          (if keyMatches key (.mapping sf) a = true then
            (mergeNode keys (.mapping sf) a).getD a else a) = keyMatches key s2 a := by
        intro s2 a
        exact keyMatches_congr key s2 _ a (hkeep a)
      congr 1
      · rw [List.map_map]
        apply List.map_congr_left
        intro a _
        simp only [Function.comp_def, List.find?_cons, hmatch]
        by_cases hm : keyMatches key (.mapping sf) a = true
        · obtain ⟨w, h1, h2⟩ := (keyMatches_iff key _ a).1 hm
          rw [hv] at h1
          cases h1
          have hnone : rest.find? (fun s2 => keyMatches key s2 a) = none := by
            rw [List.find?_eq_none]
            intro s2 hs2
            rw [hlater s2 hs2 a h2]
            simp
          simp only [hm, if_true, hnone]
        · simp only [hm, Bool.false_eq_true, if_false]
      · simp only [List.filter_cons, hany, Bool.not_true, Bool.false_eq_true, if_false]
        apply List.filter_congr
        intro s2 _
        simp only [List.any_map, Function.comp_def, hmatch]
    · rw [if_neg hany]
      have hnone : ∀ a ∈ acc, keyMatches key (.mapping sf) a = false := by
        intro a ha
        cases hc : keyMatches key (.mapping sf) a with
        | false => rfl
        | true => exact absurd (List.any_eq_true.2 ⟨a, ha, hc⟩) hany
      have hself : rest.find? (fun s2 => keyMatches key s2 (.mapping sf)) = none := by
        rw [List.find?_eq_none]
        intro s2 hs2
        rw [hlater s2 hs2 _ hv]
        simp
      have hany2 : acc.any (keyMatches key (.mapping sf)) = false := by
        cases hc : acc.any (keyMatches key (.mapping sf)) with
        | false => rfl
        | true => exact absurd hc hany
      simp only [List.map_append, List.map_cons, List.map_nil, hself, List.filter_cons, hany2,
        Bool.not_false, if_true, List.append_assoc, List.singleton_append]
      congr 1
      · apply List.map_congr_left
        intro a ha
        simp only [List.find?_cons, hnone a ha]
      · congr 1
        apply List.filter_congr
        intro s2 hs2
        simp only [List.any_append, List.any_cons, List.any_nil, Bool.or_false,
          hlater s2 hs2 _ hv]

end merge

namespace merge

/-- What `Merge` and `Filter` return on two mapping documents with one identity
key. -/
theorem Filter_pair_tree (keys : List Str) (GetMeta : YNode → Except Error ResourceMeta)
    (rangeOrder : List mergeKey → List mergeKey) (sf df : List (Str × YNode)) (k : mergeKey)
    (hrange : ∀ ks, (rangeOrder ks).Perm ks)
    (hacc : keyOf GetMeta (.mapping df) = some k) (hover : keyOf GetMeta (.mapping sf) = some k) :
    Merge keys (.mapping sf) (.mapping df) = .ok (.mapping (mergeFields keys sf df)) ∧
    Filter GetMeta (treeMerge keys) rangeOrder [.mapping df, .mapping sf] () =
      { output := [some (.mapping (mergeFields keys sf df))], err := none, state := () } := by
  refine ⟨rfl, ?_⟩
  rw [Filter_pair GetMeta (treeMerge keys) rangeOrder hrange _ _ () k hacc hover]
  rfl

/-- C15: for two mapping documents with one identity key, `Filter` returns the
later (overriding) document merged into the earlier one (the accumulator); in
the result every field the overriding document sets to an explicit null is
gone and every field the overriding document does not name is as the
accumulator had it.  The accumulator `{foo: 1, bar: 2}` merged with the
overriding `{bar: null}` is `{foo: 1}`. -/
theorem Merge_null_deletes (keys : List Str) (GetMeta : YNode → Except Error ResourceMeta)
    (rangeOrder : List mergeKey → List mergeKey) (sf df : List (Str × YNode)) (k : mergeKey)
    (hrange : ∀ ks, (rangeOrder ks).Perm ks)
    (hacc : keyOf GetMeta (.mapping df) = some k) (hover : keyOf GetMeta (.mapping sf) = some k)
    (hnd : (sf.map Prod.fst).Nodup) :
    (∃ mf, Merge keys (.mapping sf) (.mapping df) = .ok (.mapping mf) ∧
      Filter GetMeta (treeMerge keys) rangeOrder [.mapping df, .mapping sf] () =
        { output := [some (.mapping mf)], err := none, state := () } ∧
      (∀ n, fieldGet sf n = some .null → fieldGet mf n = none) ∧
      (∀ n, fieldGet sf n = none → fieldGet mf n = fieldGet df n)) ∧
    Merge keys exOverridingNull exAccumulator =
      .ok (.mapping [("foo".toList, .scalar "1".toList)]) := by
  obtain ⟨h1, h2⟩ := Filter_pair_tree keys GetMeta rangeOrder sf df k hrange hacc hover
  refine ⟨⟨_, h1, h2, fun n hn => fieldGet_mergeFields_null keys sf n hnd hn df, fun n hn => ?_⟩, rfl⟩
  exact fieldGet_mergeFields_absent keys sf n ((fieldGet_eq_none_iff sf n).1 hn) df

theorem Merge_null_deletes_witness :
    (∃ mf, Merge exKeys exOverridingNull exAccumulator = .ok (.mapping mf) ∧
      Filter treeGetMeta (treeMerge exKeys) List.reverse [exAccumulator, exOverridingNull] () =
        { output := [some (.mapping mf)], err := none, state := () } ∧
      (∀ n, fieldGet [("bar".toList, YNode.null)] n = some .null → fieldGet mf n = none) ∧
      (∀ n, fieldGet [("bar".toList, YNode.null)] n = none →
        fieldGet mf n =
          fieldGet [("foo".toList, .scalar "1".toList), ("bar".toList, .scalar "2".toList)] n)) ∧
    Merge exKeys exOverridingNull exAccumulator =
      .ok (.mapping [("foo".toList, .scalar "1".toList)]) :=
  Merge_null_deletes exKeys treeGetMeta List.reverse [("bar".toList, YNode.null)]
    [("foo".toList, .scalar "1".toList), ("bar".toList, .scalar "2".toList)] ⟨[], [], [], []⟩
    (fun ks => List.reverse_perm ks) rfl rfl (by decide)

/-- C16: for two mapping documents with one identity key that have, under the
same field, sequences with an associative key (the overriding elements being
mappings with distinct key values), `Filter` returns the overriding document
merged into the accumulator, and the merged sequence is the accumulator's
elements in their order, each merged with the overriding element of the same
key value if there is one, followed by the overriding elements that match
none, in their order; the key values of the accumulator's elements are
unchanged.  `[{name: a, v: 1}, {name: b, v: 2}]` merged with the overriding
`[{name: b, v: 3}, {name: c, v: 4}]` is
`[{name: a, v: 1}, {name: b, v: 3}, {name: c, v: 4}]`. -/
theorem Merge_associative_list (keys : List Str) (GetMeta : YNode → Except Error ResourceMeta)
    (rangeOrder : List mergeKey → List mergeKey) (sf df : List (Str × YNode)) (k : mergeKey)
    (field key : Str) (ss ds : List YNode)
    (hrange : ∀ ks, (rangeOrder ks).Perm ks)
    (hacc : keyOf GetMeta (.mapping df) = some k) (hover : keyOf GetMeta (.mapping sf) = some k)
    (hnd : (sf.map Prod.fst).Nodup)
    (hs : fieldGet sf field = some (.sequence ss)) (hd : fieldGet df field = some (.sequence ds))
    (hkey : assocKey keys ss ds = some key)
    (hwf : ∀ s ∈ ss, ∃ fs, s = .mapping fs ∧ (fs.map Prod.fst).Nodup)
    (hdistinct : (ss.map (keyValue key)).Nodup) :
    (∃ mf merged, Merge keys (.mapping sf) (.mapping df) = .ok (.mapping mf) ∧
      Filter GetMeta (treeMerge keys) rangeOrder [.mapping df, .mapping sf] () =
        { output := [some (.mapping mf)], err := none, state := () } ∧
      fieldGet mf field = some (.sequence merged) ∧
      merged =
        ds.map (fun a =>
          match ss.find? (fun s => keyMatches key s a) with
          | some s => (mergeNode keys s a).getD a
          | none => a) ++
        ss.filter (fun s => !ds.any (keyMatches key s)) ∧
      merged.map (keyValue key) =
        ds.map (keyValue key) ++ (ss.filter (fun s => !ds.any (keyMatches key s))).map (keyValue key)) ∧
    Merge exKeys exOverridingList exAccumulatorList =
      .ok (.mapping [("items".toList, .sequence
        [exElem "a".toList "1".toList, exElem "b".toList "3".toList, exElem "c".toList "4".toList])]) := by
  obtain ⟨h1, h2⟩ := Filter_pair_tree keys GetMeta rangeOrder sf df k hrange hacc hover
  have hall := List.find?_some hkey
  rw [List.all_eq_true] at hall
  have hsome : ∀ s ∈ ss, (keyValue key s).isSome = true :=
    fun s hs2 => hall s (List.mem_append_left _ hs2)
  have hmerged := mergeElems_assoc keys key ss hwf hsome hdistinct ds
  refine ⟨⟨_, _, h1, h2, ?_, rfl, ?_⟩, rfl⟩
  · have := fieldGet_mergeFields_present keys sf field _ _ hnd hs df _ hd
      (mergeNode_sequence keys ss ds)
    rw [this, hkey, hmerged]
  · rw [List.map_append, List.map_map]
    congr 1
    apply List.map_congr_left
    intro a _
    simp only [Function.comp_def]
    split
    · next s hf =>
      have hm := List.find?_some hf
      obtain ⟨fs, rfl, hfs⟩ := hwf s (List.mem_of_find?_eq_some hf)
      exact keyValue_merge keys key fs a hfs hm
    · rfl

theorem Merge_associative_list_witness :
    (∃ mf merged, Merge exKeys exOverridingList exAccumulatorList = .ok (.mapping mf) ∧
      Filter treeGetMeta (treeMerge exKeys) List.reverse [exAccumulatorList, exOverridingList] () =
        { output := [some (.mapping mf)], err := none, state := () } ∧
      fieldGet mf "items".toList = some (.sequence merged) ∧
      merged =
        [exElem "a".toList "1".toList, exElem "b".toList "2".toList].map (fun a =>
          match [exElem "b".toList "3".toList, exElem "c".toList "4".toList].find?
              (fun s => keyMatches "name".toList s a) with
          | some s => (mergeNode exKeys s a).getD a
          | none => a) ++
        [exElem "b".toList "3".toList, exElem "c".toList "4".toList].filter
          (fun s => !(List.any [exElem "a".toList "1".toList, exElem "b".toList "2".toList]
            (keyMatches "name".toList s))) ∧
      merged.map (keyValue "name".toList) =
        [exElem "a".toList "1".toList, exElem "b".toList "2".toList].map (keyValue "name".toList) ++
          ([exElem "b".toList "3".toList, exElem "c".toList "4".toList].filter
            (fun s => !(List.any [exElem "a".toList "1".toList, exElem "b".toList "2".toList]
              (keyMatches "name".toList s)))).map (keyValue "name".toList)) ∧
    Merge exKeys exOverridingList exAccumulatorList =
      .ok (.mapping [("items".toList, .sequence
        [exElem "a".toList "1".toList, exElem "b".toList "3".toList, exElem "c".toList "4".toList])]) :=
  Merge_associative_list exKeys treeGetMeta List.reverse
    [("items".toList, .sequence [exElem "b".toList "3".toList, exElem "c".toList "4".toList])]
    [("items".toList, .sequence [exElem "a".toList "1".toList, exElem "b".toList "2".toList])]
    ⟨[], [], [], []⟩ "items".toList "name".toList _ _
    (fun ks => List.reverse_perm ks) rfl rfl (by decide) rfl rfl (by decide)
    (by
      intro s hs
      simp only [List.mem_cons, List.mem_singleton, List.not_mem_nil, or_false] at hs
      rcases hs with rfl | rfl
      · exact ⟨_, rfl, by decide⟩
      · exact ⟨_, rfl, by decide⟩)
    (by decide)

end merge

namespace diff

/-- C17: the diff of a package against a package with the same content is
empty; more generally the diff lists exactly the top-level paths at which the
two packages differ when the upstream field of the Kptfile is ignored, so two
packages whose top-level files agree apart from that field have an empty
diff, whatever their nested sub-packages contain. -/
theorem PkgDiff_empty (pkg1 pkg2 : Pkg) :
    PkgDiff pkg1 pkg1 = [] ∧
    (∀ path, path ∈ PkgDiff pkg1 pkg2 ↔
      (fileGet pkg1.files path).map Content.ignoreUpstream ≠
        (fileGet pkg2.files path).map Content.ignoreUpstream) ∧
    ((∀ path, (fileGet pkg1.files path).map Content.ignoreUpstream =
        (fileGet pkg2.files path).map Content.ignoreUpstream) → PkgDiff pkg1 pkg2 = []) ∧
    (∀ (files : List (Str × Content)) (subs1 subs2 : List (Str × Pkg)),
      PkgDiff (.mk files subs1) (.mk files subs2) = []) := by
  have hget : ∀ (files : List (Str × Content)) (path : Str),
      fileGet files path ≠ none → path ∈ files.map Prod.fst := by
    intro files path
    induction files with
    | nil => intro h; exact absurd rfl h
    | cons e rest ih =>
      obtain ⟨p, c⟩ := e
      intro h
      rw [List.map_cons, List.mem_cons]
      by_cases hp : p = path
      · exact Or.inl hp.symm
      · simp only [fileGet, hp, if_false] at h
        exact Or.inr (ih h)
  have hmem : ∀ (a b : Pkg) (path : Str), path ∈ PkgDiff a b ↔
      (fileGet a.files path).map Content.ignoreUpstream ≠
        (fileGet b.files path).map Content.ignoreUpstream := by
    intro a b path
    simp only [PkgDiff, List.mem_filter, List.mem_dedup, List.mem_append, differsAt,
      decide_eq_true_eq]
    constructor
    · exact fun h => h.2
    · intro h
      refine ⟨?_, h⟩
      by_cases h1 : fileGet a.files path = none
      · by_cases h2 : fileGet b.files path = none
        · rw [h1, h2] at h
          exact absurd rfl h
        · exact Or.inr (hget _ _ h2)
      · exact Or.inl (hget _ _ h1)
  have hempty : ∀ a b : Pkg, (∀ path, (fileGet a.files path).map Content.ignoreUpstream =
      (fileGet b.files path).map Content.ignoreUpstream) → PkgDiff a b = [] := by
    intro a b h
    rw [List.eq_nil_iff_forall_not_mem]
    intro path hp
    exact (hmem a b path).1 hp (h path)
  exact ⟨hempty pkg1 pkg1 (fun _ => rfl), hmem pkg1 pkg2, hempty pkg1 pkg2,
    fun files subs1 subs2 => hempty _ _ (fun _ => rfl)⟩

theorem PkgDiff_empty_witness :
    PkgDiff (exPkg "github.com/GoogleContainerTools/kpt@master".toList exDeployment)
      (exPkg "github.com/GoogleContainerTools/kpt@kpt/v1".toList exConfigMap) = [] :=
  (PkgDiff_empty (exPkg "github.com/GoogleContainerTools/kpt@master".toList exDeployment)
    (exPkg "github.com/GoogleContainerTools/kpt@kpt/v1".toList exConfigMap)).2.2.1
    (fun path => by
      simp only [exPkg, Pkg.files, fileGet]
      split <;> rfl)

end diff
